import Mathlib

/-
  Verification of the boundary-aware recursive markdown chunking engine
  (src/hwcc/chunk/markdown.py) against its natural-language specification.

  Modelling conventions:
  - Python `str` is modelled as `List Char` (`Txt`).
  - The external subword tokenizer (tiktoken cl100k_base) is not part of this
    repository; it is modelled as an abstract `Tokenizer` (encode/decode pair).
    The properties the specification attributes to it are collected in
    `TokenizerLaws` and a concrete per-character tokenizer `charTok` satisfying
    them is provided for evaluating the pipeline on concrete inputs.
  - Imperative loops are translated to fuel-based structural recursion
    (fuel is always instantiated so that it dominates the loop's trip count),
    so that every definition is executable and reduces in the kernel.
-/

set_option autoImplicit false
set_option maxHeartbeats 2000000
set_option maxRecDepth 8000

namespace Hwcc

/-- Python strings are modelled as lists of characters. -/
abbrev Txt := List Char

/-- The backtick character (written via its code point). -/
def btick : Char := Char.ofNat 0x60

/-- Python whitespace: the default character set of `str.strip` and of the
regex class used by the patterns in the source. -/
def pySpace (c : Char) : Bool :=
  c == ' ' || c == '\t' || c == '\n' || c == '\r' ||
  c == Char.ofNat 11 || c == Char.ofNat 12

/-- Python `s.strip()`: drop leading and trailing whitespace. -/
def pyStrip (s : Txt) : Txt :=
  ((s.dropWhile pySpace).reverse.dropWhile pySpace).reverse

/-- Python `s.split(sep)` for a single-character separator (used with `"\n"`
in `_extract_atomic_blocks`). Always returns at least one part. -/
def splitOnChar (sep : Char) : Txt → List Txt
  | [] => [[]]
  | c :: cs =>
    match splitOnChar sep cs with
    | [] => [[]]
    | h :: t => if c == sep then [] :: h :: t else (c :: h) :: t

/-- Python `sep.join(parts)` for a single-character separator (used with
`"\n".join` in `_extract_atomic_blocks`). -/
def joinWith (sep : Char) : List Txt → Txt
  | [] => []
  | [l] => l
  | l :: l2 :: ls => l ++ sep :: joinWith sep (l2 :: ls)

/-! ## Tokenizer model

The source wraps tiktoken's cl100k_base encoding:
`count_tokens(text)` returns `0` for the empty string and otherwise the
length of `encode(text)`. -/

/-- Abstract external tokenizer: `encode`/`decode` over token ids. -/
structure Tokenizer where
  encode : Txt → List Nat
  decode : List Nat → Txt

/-- Source `count_tokens`: `0` for empty text, else the encoded length. -/
def count_tokens (T : Tokenizer) (s : Txt) : Nat :=
  if s = [] then 0 else (T.encode s).length

/-- Properties of the tokenizer that the specification relies on
(losslessness, stability of token slices, subadditivity of token counts,
monotonicity under taking sub-sequences). They hold for the concrete
per-character tokenizer `charTok` below. -/
structure TokenizerLaws (T : Tokenizer) : Prop where
  decode_encode : ∀ s, T.decode (T.encode s) = s
  encode_nil : T.encode [] = []
  stable_split : ∀ l₁ l₂, T.encode (T.decode (l₁ ++ l₂)) = l₁ ++ l₂ →
    T.encode (T.decode l₁) = l₁ ∧ T.encode (T.decode l₂) = l₂
  count_subadd : ∀ a b, (T.encode (a ++ b)).length ≤ (T.encode a).length + (T.encode b).length
  count_sublist : ∀ a b, a.Sublist b → (T.encode a).length ≤ (T.encode b).length

/-- Concrete tokenizer for evaluation: one token per character. -/
def charTok : Tokenizer where
  encode s := s.map Char.toNat
  decode l := l.map Char.ofNat

/-! ## Segment extractor (`_extract_atomic_blocks`) -/

/-- `_FENCE_RE.match(line)`: a line opening a fenced block is a leading run of
three or more backticks or tildes; returns the fence character and the length
of the (maximal) leading marker run. -/
def fenceOpen (l : Txt) : Option (Char × Nat) :=
  let nb := (l.takeWhile (· == btick)).length
  if 3 ≤ nb then some (btick, nb)
  else
    let nt := (l.takeWhile (· == '~')).length
    if 3 ≤ nt then some ('~', nt) else none

/-- Closing-fence test `re.match(rf"^{fence_char}{fence_len,}$", line)`:
the line consists solely of at least `n` copies of the fence character. -/
def fenceClose (c : Char) (n : Nat) (l : Txt) : Bool :=
  decide (n ≤ l.length) && l.all (· == c)

/-- Inner loop of the fenced-block branch: consume lines up to and including
the first closing fence (or everything when no close exists). Returns the
consumed block lines and the remaining lines. -/
def consumeFence (c : Char) (n : Nat) : List Txt → (List Txt × List Txt)
  | [] => ([], [])
  | l :: ls =>
    if fenceClose c n l then ([l], ls)
    else
      let r := consumeFence c n ls
      (l :: r.1, r.2)

/-- `_TABLE_ROW_RE.match(line)` for a single line (no newline inside):
the line starts with a pipe, ends with a pipe, with at least one character
in between. -/
def isTableRow : Txt → Bool
  | '|' :: rest => decide (2 ≤ rest.length) && (rest.getLast? == some '|')
  | _ => false

/-- One position of `_TABLE_SEP_RE`: a pipe, then spaces/colons, then at
least one dash, then spaces/colons, then a pipe. -/
def sepRowAt (cs : Txt) : Bool :=
  match cs with
  | '|' :: rest =>
    let r1 := rest.dropWhile (fun c => pySpace c || c == ':')
    let r2 := r1.dropWhile (· == '-')
    decide (r2.length < r1.length) &&
      ((r2.dropWhile (fun c => pySpace c || c == ':')).head? == some '|')
  | _ => false

/-- `_TABLE_SEP_RE.search(text)` (MULTILINE): the separator-row pattern
matches at the start of the text or just after some newline. -/
def tableSepSearchGo (fuel : Nat) (cs : Txt) : Bool :=
  match fuel with
  | 0 => false
  | fuel + 1 =>
    sepRowAt cs ||
      (match cs.dropWhile (fun c => c != '\n') with
       | [] => false
       | _ :: t => tableSepSearchGo fuel t)

def tableSepSearch (t : Txt) : Bool := tableSepSearchGo (t.length + 1) t

/-- Flush the accumulated plain-text line buffer (only when non-empty),
joined with newlines, as one non-atomic segment. -/
def flushText (cur : List Txt) : List (Txt × Bool) :=
  match cur with
  | [] => []
  | _ :: _ => [(joinWith '\n' cur, false)]

/-- Main loop of `_extract_atomic_blocks`, walking the document line by line.
`cur` is the pending plain-text buffer. Fuel dominates the number of loop
iterations (each iteration consumes at least one line). -/
def extractGo (fuel : Nat) (cur : List Txt) (lines : List Txt) : List (Txt × Bool) :=
  match fuel, lines with
  | _, [] => flushText cur
  | 0, _ :: _ => flushText cur
  | fuel + 1, l :: ls =>
    match fenceOpen l with
    | some (c, n) =>
      let r := consumeFence c n ls
      flushText cur ++ (joinWith '\n' (l :: r.1), true) :: extractGo fuel [] r.2
    | none =>
      if isTableRow l then
        let run := l :: ls.takeWhile isTableRow
        let rest := ls.dropWhile isTableRow
        let ttext := joinWith '\n' run
        if tableSepSearch ttext then
          flushText cur ++ (ttext, true) :: extractGo fuel [] rest
        else
          flushText cur ++ extractGo fuel run rest
      else
        extractGo fuel (cur ++ [l]) ls

/-- `_extract_atomic_blocks(text)`: split text into `(content, is_atomic)`
segments, marking fenced code blocks and real tables as atomic. -/
def extract_atomic_blocks (text : Txt) : List (Txt × Bool) :=
  let lines := splitOnChar '\n' text
  extractGo lines.length [] lines

/-! ## Recursive splitter (`_recursive_split`, `_hard_split`) -/

/-- Python `s.split(sep)` for a non-empty separator string: leftmost,
non-overlapping. Fuel dominates the scan (one character or one separator
consumed per step). -/
def splitOnSepGo (fuel : Nat) (sep : Txt) (s : Txt) : List Txt :=
  match fuel with
  | 0 => [s]
  | fuel + 1 =>
    match s with
    | [] => [[]]
    | c :: cs =>
      if sep.isPrefixOf (c :: cs) then
        [] :: splitOnSepGo fuel sep ((c :: cs).drop sep.length)
      else
        match splitOnSepGo fuel sep cs with
        | [] => [[]]
        | h :: t => (c :: h) :: t

/-- Python `text.split(separator)` (the separator is never empty here). -/
def pySplit (sep : Txt) (s : Txt) : List Txt :=
  if sep.isEmpty then [s] else splitOnSepGo (s.length + 1) sep s

/-- Lookahead test of `re.split(r"(?=(?:^|\n)# )", ...)`: text continues
with a level-1 heading line. -/
def isH1Start : Txt → Bool
  | '#' :: ' ' :: _ => true
  | _ => false

/-- Lookahead test for `(?=(?:^|\n)## )`. -/
def isH2Start : Txt → Bool
  | '#' :: '#' :: ' ' :: _ => true
  | _ => false

/-- Lookahead test for `(?=(?:^|\n)###+ )`: three or more hashes then a
space. -/
def isH3Start : Txt → Bool
  | '#' :: '#' :: '#' :: rest => (rest.dropWhile (· == '#')).head? == some ' '
  | _ => false

/-- Prepend a character to the first part of a split result. -/
def consFirst (c : Char) : List Txt → List Txt
  | [] => [[c]]
  | h :: t => (c :: h) :: t

/-- Zero-width split on the `\n`-lookahead positions: a split point sits
just before each newline that is followed by a matching heading line. -/
def splitLookaheadGo (p : Txt → Bool) : Txt → List Txt
  | [] => [[]]
  | c :: cs =>
    if c == '\n' && p cs then
      [] :: consFirst '\n' (splitLookaheadGo p cs)
    else
      consFirst c (splitLookaheadGo p cs)

/-- `re.split` on a heading lookahead: the `^` alternative (absolute start
of text) adds an initial empty part when the text itself starts with the
heading marker. -/
def reSplitHeading (p : Txt → Bool) (s : Txt) : List Txt :=
  if p s then [] :: splitLookaheadGo p s else splitLookaheadGo p s

/-- The priority-ordered separator list `MarkdownChunker.SEPARATORS`. -/
def SEPARATORS : List Txt :=
  ["\n# ".data, "\n## ".data, "\n### ".data, "\n\n".data, "\n".data, " ".data]

/-- Separator dispatch inside `_recursive_split`: the three heading
separators are implemented as lookahead regex splits, everything else as a
plain string split. -/
def split_parts (sep : Txt) (text : Txt) : List Txt :=
  if sep = "\n# ".data then reSplitHeading isH1Start text
  else if sep = "\n## ".data then reSplitHeading isH2Start text
  else if sep = "\n### ".data then reSplitHeading isH3Start text
  else pySplit sep text

/-- Windows of `n` consecutive tokens (`range(0, len(tokens), max_tokens)`).
`n = 0` never occurs (the caller's budget is at least 1; Python would raise). -/
def chunksOf (fuel : Nat) (n : Nat) (l : List Nat) : List (List Nat) :=
  match fuel, l with
  | 0, _ => []
  | _ + 1, [] => []
  | fuel + 1, x :: xs => ((x :: xs).take n) :: chunksOf fuel n ((x :: xs).drop n)

/-- `_hard_split`: encode, cut into `max_tokens`-sized windows, decode. -/
def hard_split (T : Tokenizer) (text : Txt) (maxTokens : Nat) : List Txt :=
  let tokens := T.encode text
  (chunksOf tokens.length maxTokens tokens).map T.decode

/-- The greedy accumulate-or-flush loop of `_recursive_split` (steps over
the non-empty parts; `splitBig` recursively splits an oversized single
part with the remaining separators). The imperative `result` list is
produced directly in output order. -/
def mergeLoop (T : Tokenizer) (maxTokens : Nat) (rejoin : Txt)
    (splitBig : Txt → List Txt) (cur : Txt) : List Txt → List Txt
  | [] => if cur.isEmpty then [] else [cur]
  | part :: rest =>
    let candidate := if cur.isEmpty then part else cur ++ rejoin ++ part
    if count_tokens T candidate ≤ maxTokens then
      mergeLoop T maxTokens rejoin splitBig candidate rest
    else
      (if cur.isEmpty then [] else [cur]) ++
        (if maxTokens < count_tokens T part then
          splitBig part ++ mergeLoop T maxTokens rejoin splitBig [] rest
        else
          mergeLoop T maxTokens rejoin splitBig part rest)

/-- `_recursive_split(text, max_tokens, separators)`. -/
def recursive_split (T : Tokenizer) (text : Txt) (maxTokens : Nat) :
    List Txt → List Txt
  | [] =>
    if count_tokens T text ≤ maxTokens then [text]
    else hard_split T text maxTokens
  | sep :: rest =>
    if count_tokens T text ≤ maxTokens then [text]
    else
      let parts := (split_parts sep text).filter (fun p => !(pyStrip p).isEmpty)
      if parts.length ≤ 1 then recursive_split T text maxTokens rest
      else
        let rejoin := if ("\n#".data).isPrefixOf sep then "\n".data else sep
        mergeLoop T maxTokens rejoin (fun p => recursive_split T p maxTokens rest) [] parts

/-! ## Overlap insertion (`_add_overlap`)

The Python code tracks atomic chunks through an index set `atomic_indices`;
here every chunk carries its atomicity as an instrumented boolean flag at
the same position, which the proofs use to speak about "non-atomic" chunks. -/

/-- Overlap prefix computation for one non-atomic chunk: take the last
`k` tokens of the previous chunk's (pre-overlap) content, decode, prepend. -/
def applyOverlap (T : Tokenizer) (k : Nat) (prev t : Txt) : Txt :=
  let prevTokens := T.encode prev
  if k < prevTokens.length then
    let ov := T.decode (prevTokens.drop (prevTokens.length - k))
    if ov.isEmpty then t else ov ++ t
  else t

/-- Loop of `_add_overlap` over indices `i ≥ 1`; `prev` is the *input*
chunk at `i-1` (the Python loop reads `chunks[i - 1]` from the input list). -/
def addOverlapGo (T : Tokenizer) (k : Nat) (prev : Txt) :
    List (Txt × Bool) → List (Txt × Bool)
  | [] => []
  | (t, a) :: rest =>
    (if a then t else applyOverlap T k prev t, a) :: addOverlapGo T k t rest

/-- `_add_overlap(chunks, overlap_tokens, atomic_indices)`; no-op when the
overlap is zero (Python: `overlap_tokens <= 0`) or there are fewer than two
chunks. -/
def add_overlap (T : Tokenizer) (chunks : List (Txt × Bool)) (k : Nat) :
    List (Txt × Bool) :=
  if k = 0 || chunks.length ≤ 1 then chunks
  else
    match chunks with
    | [] => []
    | c :: rest => c :: addOverlapGo T k c.1 rest

/-! ## Small-chunk merging (`MarkdownChunker._merge_small_chunks`) -/

/-- Loop of `_merge_small_chunks`. `cur` with empty text plays the role of
Python's falsy empty-string accumulator. The boolean on each chunk is the
instrumented atomicity flag; a merged chunk is flagged atomic when either
side was. -/
def mergeSmallGo (T : Tokenizer) (minTokens maxTokens : Nat)
    (res : List (Txt × Bool)) (cur : Txt × Bool) :
    List (Txt × Bool) → List (Txt × Bool)
  | [] =>
    if cur.1.isEmpty then res
    else
      match res.getLast? with
      | some lc =>
        if count_tokens T cur.1 < minTokens then
          let merged := lc.1 ++ "\n\n".data ++ cur.1
          if count_tokens T merged ≤ maxTokens then
            res.dropLast ++ [(merged, lc.2 || cur.2)]
          else res ++ [cur]
        else res ++ [cur]
      | none => res ++ [cur]
  | (t, a) :: rest =>
    if cur.1.isEmpty then mergeSmallGo T minTokens maxTokens res (t, a) rest
    else if count_tokens T cur.1 < minTokens then
      let merged := cur.1 ++ "\n\n".data ++ t
      if count_tokens T merged ≤ maxTokens then
        mergeSmallGo T minTokens maxTokens res (merged, cur.2 || a) rest
      else
        mergeSmallGo T minTokens maxTokens (res ++ [cur]) (t, a) rest
    else
      mergeSmallGo T minTokens maxTokens (res ++ [cur]) (t, a) rest

/-- `_merge_small_chunks(chunks, min_tokens, max_tokens)`; no-op on empty
input or non-positive `min_tokens`. -/
def merge_small_chunks (T : Tokenizer) (chunks : List (Txt × Bool))
    (minTokens maxTokens : Nat) : List (Txt × Bool) :=
  if chunks.isEmpty || minTokens = 0 then chunks
  else mergeSmallGo T minTokens maxTokens [] ([], false) chunks

/-! ## Page markers -/

/-- Decimal value of a digit run (`int(...)`). -/
def digitsVal (ds : Txt) : Nat :=
  ds.foldl (fun a c => a * 10 + (c.toNat - 48)) 0

/-- Match `<!-- PAGE:(\d+) -->` at the start of the text; returns the page
number and the remainder after the marker. -/
def matchPageCore (s : Txt) : Option (Nat × Txt) :=
  if ("<!-- PAGE:".data).isPrefixOf s then
    let r := s.drop 10
    let ds := r.takeWhile Char.isDigit
    if ds.isEmpty then none
    else
      let r2 := r.drop ds.length
      if (" -->".data).isPrefixOf r2 then some (digitsVal ds, r2.drop 4) else none
  else none

/-- `_PAGE_MARKER_RE.search`: page number of the first marker, if any. -/
def pageSearchGo (fuel : Nat) (s : Txt) : Option Nat :=
  match fuel with
  | 0 => none
  | fuel + 1 =>
    match matchPageCore s with
    | some (n, _) => some n
    | none =>
      match s with
      | [] => none
      | _ :: t => pageSearchGo fuel t

def pageSearch (s : Txt) : Option Nat := pageSearchGo (s.length + 1) s

/-- `_PAGE_MARKER_STRIP_RE.sub("", s)`: remove every `<!-- PAGE:N -->`
marker together with one optional trailing newline. -/
def stripPageGo (fuel : Nat) (s : Txt) : Txt :=
  match fuel with
  | 0 => s
  | fuel + 1 =>
    match matchPageCore s with
    | some (_, rest) =>
      stripPageGo fuel (if rest.head? == some '\n' then rest.drop 1 else rest)
    | none =>
      match s with
      | [] => []
      | c :: cs => c :: stripPageGo fuel cs

def strip_page_markers (s : Txt) : Txt := stripPageGo (s.length + 1) s

/-! ## Heading detection and the section tracker

`_HEADING_RE` is `^(#{1,6})\s+(.+)$` with MULTILINE. Note that `\s` may
cross newlines, so (faithfully to the Python regex) the title group can be
taken from a later line; the backtracking choice of the whitespace run is
the greedy largest width whose following character exists and is not a
newline. -/

/-- Greedy choice of the whitespace width `w2 ∈ [1, w]`: the largest one
for which a non-newline character follows. -/
def pickW (afterHash : Txt) : Nat → Option Nat
  | 0 => none
  | w + 1 =>
    match (afterHash.drop (w + 1)).head? with
    | some c => if c != '\n' then some (w + 1) else pickW afterHash w
    | none => pickW afterHash w

/-- Try to match `_HEADING_RE` at a line-start position; returns the level,
the raw title group and the remainder at the match end. -/
def headingAt (cs : Txt) : Option (Nat × Txt × Txt) :=
  let m := (cs.takeWhile (· == '#')).length
  if 1 ≤ m ∧ m ≤ 6 then
    let afterHash := cs.drop m
    let w := (afterHash.takeWhile pySpace).length
    match pickW afterHash w with
    | some w2 =>
      let tl := afterHash.drop w2
      let g2 := tl.takeWhile (fun c => c != '\n')
      some (m, g2, tl.drop g2.length)
    | none => none
  else none

/-- `_HEADING_RE.finditer`: all heading matches in order, each as
`(level, stripped title)`. -/
def findHeadingsGo (fuel : Nat) (cs : Txt) : List (Nat × Txt) :=
  match fuel with
  | 0 => []
  | fuel + 1 =>
    match headingAt cs with
    | some (lvl, g2, rest) =>
      (lvl, pyStrip g2) ::
        (match rest with
         | [] => []
         | _ :: t => findHeadingsGo fuel t)
    | none =>
      match cs.dropWhile (fun c => c != '\n') with
      | [] => []
      | _ :: t => findHeadingsGo fuel t

def find_headings (s : Txt) : List (Nat × Txt) := findHeadingsGo (s.length + 1) s

/-- One heading step of `_SectionTracker.update`: pop all entries at the
same or deeper level, then push. The top of the stack is the head of the
list (the Python list keeps the top at its end). -/
def trackerUpdateOne (stack : List (Nat × Txt)) (h : Nat × Txt) : List (Nat × Txt) :=
  h :: stack.dropWhile (fun e => h.1 ≤ e.1)

/-- `_SectionTracker.update(text)`. -/
def tracker_update (stack : List (Nat × Txt)) (text : Txt) : List (Nat × Txt) :=
  (find_headings text).foldl trackerUpdateOne stack

/-- Join parts with a separator string. -/
def joinParts (sep : Txt) : List Txt → Txt
  | [] => []
  | [x] => x
  | x :: y :: t => x ++ sep ++ joinParts sep (y :: t)

/-- `_SectionTracker.path`: titles joined bottom-to-top with `" > "`. -/
def tracker_path (stack : List (Nat × Txt)) : Txt :=
  joinParts (" > ".data) (stack.map Prod.snd).reverse

/-! ## A small backtracking regex engine

The six keyword patterns of the classifier are transcribed into this AST
and matched with Python `re` semantics (leftmost search, greedy star,
alternation priority, word boundaries, IGNORECASE folded into character
predicates). -/

inductive RE where
  | eps : RE
  | cls : (Char → Bool) → RE
  | seq : RE → RE → RE
  | alt : RE → RE → RE
  | star : RE → RE
  | bnd : RE

/-- Word characters for `\b`. Python's `\w` is unicode-aware; beyond ASCII
only the letters appearing in the source patterns are relevant here. -/
def isWordChar (c : Char) : Bool :=
  c.isAlphanum || c == '_' || c == 'µ' || c == 'Ω' || c == 'ω'

def wordOpt : Option Char → Bool
  | some c => isWordChar c
  | none => false

/-- Continuation-passing backtracking matcher. `prev` is the character just
before the current position (needed for `\b`). The fuel strictly decreases
on every recursive call; a star iteration must consume at least one
character (Python's empty-iteration rule). -/
def reM (fuel : Nat) (r : RE) (prev : Option Char) (cs : Txt)
    (k : Option Char → Txt → Bool) : Bool :=
  match fuel with
  | 0 => false
  | fuel + 1 =>
    match r with
    | .eps => k prev cs
    | .cls p =>
      match cs with
      | [] => false
      | c :: rest => p c && k (some c) rest
    | .seq a b => reM fuel a prev cs (fun p2 cs2 => reM fuel b p2 cs2 k)
    | .alt a b => reM fuel a prev cs k || reM fuel b prev cs k
    | .bnd =>
      (wordOpt prev != wordOpt cs.head?) && k prev cs
    | .star a =>
      reM fuel a prev cs (fun p2 cs2 =>
        decide (cs2.length < cs.length) && reM fuel (.star a) p2 cs2 k) || k prev cs

def reSize : RE → Nat
  | .eps => 1
  | .cls _ => 1
  | .seq a b => reSize a + reSize b + 1
  | .alt a b => reSize a + reSize b + 1
  | .star a => reSize a + 1
  | .bnd => 1

/-- `re.search`: try a match at every position, left to right. -/
def reSearchGo (r : RE) (fuel : Nat) (prev : Option Char) (cs : Txt) : Bool :=
  match fuel with
  | 0 => false
  | fuel + 1 =>
    reM ((reSize r + 2) * (cs.length + 2)) r prev cs (fun _ _ => true) ||
      (match cs with
       | [] => false
       | c :: rest => reSearchGo r fuel (some c) rest)

def reSearch (r : RE) (s : Txt) : Bool := reSearchGo r (s.length + 1) none s

/-- Case-insensitive single character (IGNORECASE). -/
def chr (c : Char) : RE := .cls (fun x => x.toLower == c.toLower)

/-- Case-insensitive literal string. -/
def lit (s : String) : RE := s.data.foldr (fun c r => .seq (chr c) r) .eps

def seqL (l : List RE) : RE := l.foldr .seq .eps

/-- Priority-ordered alternation. -/
def altL : List RE → RE
  | [] => .cls (fun _ => false)
  | [r] => r
  | r :: s :: t => .alt r (altL (s :: t))

/-- Exactly `n` repetitions. -/
def repN (r : RE) : Nat → RE
  | 0 => .eps
  | n + 1 => .seq r (repN r n)

def plusRE (r : RE) : RE := .seq r (.star r)

def optRE (r : RE) : RE := .alt r .eps

def digitRE : RE := .cls Char.isDigit

def wsRE : RE := .cls pySpace

def hexRE : RE := .cls (fun c => c.isDigit || (('a' ≤ c.toLower) && (c.toLower ≤ 'f')))

/-- `[/\s-]` of the read/write alternatives. -/
def slashWsDash : RE := .cls (fun c => c == '/' || pySpace c || c == '-')

/-- `_REGISTER_KW_RE`. -/
def reRegisterKw : RE :=
  .alt
    (seqL [.bnd,
      altL [lit "register", lit "offset",
        seqL [lit "reset", .star wsRE, lit "value"],
        seqL [lit "bit", .star wsRE, lit "field"],
        seqL [lit "read", slashWsDash, lit "write"],
        seqL [lit "read", slashWsDash, lit "only"],
        seqL [lit "write", slashWsDash, lit "only"],
        seqL [lit "base", .star wsRE, lit "address"]],
      .bnd])
    (seqL [lit "0x", repN hexRE 8])

/-- `_TIMING_KW_RE`. -/
def reTimingKw : RE :=
  .alt
    (seqL [.bnd, plusRE digitRE, .star wsRE,
      altL [lit "ns", lit "µs", lit "us", lit "ms", lit "MHz", lit "kHz", lit "GHz"],
      .bnd])
    (seqL [.bnd,
      altL [seqL [lit "setup", .star wsRE, lit "time"],
        seqL [lit "hold", .star wsRE, lit "time"],
        seqL [lit "propagation", .star wsRE, lit "delay"],
        seqL [lit "clock", .star wsRE, altL [lit "speed", lit "frequency", lit "period"]],
        seqL [lit "baud", .star wsRE, lit "rate"]],
      .bnd])

/-- `_CONFIG_PROC_KW_RE`. -/
def reConfigProcKw : RE :=
  seqL [.bnd,
    altL [seqL [lit "step", .star wsRE, digitRE],
      seqL [lit "initialization", .star wsRE, lit "sequence"],
      seqL [lit "programming", .star wsRE, lit "procedure"],
      seqL [lit "following", .star wsRE, lit "steps"],
      seqL [lit "must", .star wsRE, lit "be", .star wsRE, lit "set"],
      seqL [lit "should", .star wsRE, lit "be", .star wsRE, lit "configured"]],
    .bnd]

/-- `_ERRATA_KW_RE`. -/
def reErrataKw : RE :=
  .alt
    (seqL [.bnd,
      altL [seqL [lit "errat", altL [lit "a", lit "um"]],
        lit "workaround", lit "limitation",
        seqL [lit "silicon", .star wsRE, lit "bug"],
        lit "advisory",
        seqL [lit "known", .star wsRE, lit "issue"]],
      .bnd])
    (seqL [lit "ES", repN digitRE 4])

/-- `_PIN_MAP_KW_RE`. -/
def rePinMapKw : RE :=
  .alt
    (seqL [.bnd,
      altL [seqL [lit "alternate", .star wsRE, lit "function"],
        seqL [lit "AF", plusRE digitRE],
        seqL [lit "pin", .star wsRE,
          altL [lit "mapping", lit "assignment", lit "configuration"]],
        lit "remap"],
      .bnd])
    (seqL [.bnd, lit "GPIO", .cls Char.isAlpha, .star digitRE, .bnd])

/-- `_ELECTRICAL_KW_RE`. -/
def reElectricalKw : RE :=
  altL [
    seqL [.bnd, plusRE digitRE, optRE (chr '.'), .star digitRE, .star wsRE,
      altL [lit "mA", lit "µA", lit "uA", lit "kΩ"], .bnd],
    seqL [.bnd,
      altL [seqL [lit "power", .star wsRE, lit "supply"],
        seqL [lit "current", .star wsRE, lit "consumption"],
        seqL [lit "voltage", .star wsRE, altL [lit "range", lit "level"]]],
      .bnd],
    seqL [.bnd, chr 'V',
      altL [lit "DD", lit "CC", lit "SS", lit "DDA", lit "BAT", lit "REF"],
      .bnd]]

/-! ## Content type classifier (`_detect_content_type`) -/

/-- `_FENCE_RE.search` (MULTILINE): some line opens a fence. -/
def fenceSearch (t : Txt) : Bool :=
  (splitOnChar '\n' t).any (fun l => (fenceOpen l).isSome)

/-- `_HEADING_RE.search`: some heading match exists. -/
def headingSearch (t : Txt) : Bool :=
  !(find_headings t).isEmpty

/-- `MarkdownChunker._detect_content_type(text)`: structural types first,
then domain keyword families, then generic fallbacks. -/
def detect_content_type (text : Txt) : Txt :=
  if fenceSearch text then "code".data
  else if tableSepSearch text then
    if reSearch reRegisterKw text then "register_table".data
    else if reSearch rePinMapKw text then "pin_mapping".data
    else if reSearch reElectricalKw text then "electrical_spec".data
    else if reSearch reTimingKw text then "timing_spec".data
    else "table".data
  else if reSearch reErrataKw text then "errata".data
  else if reSearch reConfigProcKw text then "config_procedure".data
  else if reSearch reRegisterKw text then "register_description".data
  else if reSearch reTimingKw text then "timing_spec".data
  else if reSearch rePinMapKw text then "pin_mapping".data
  else if reSearch reElectricalKw text then "electrical_spec".data
  else if headingSearch text then "section".data
  else "prose".data

/-! ## Chunk ids and pipeline data -/

def digitChar (n : Nat) : Char := Char.ofNat (48 + n)

/-- Decimal digits of a natural number (most significant first). -/
def natDigitsGo (fuel : Nat) (n : Nat) : Txt :=
  match fuel with
  | 0 => []
  | fuel + 1 =>
    if n < 10 then [digitChar n]
    else natDigitsGo fuel (n / 10) ++ [digitChar (n % 10)]

def natDigits (n : Nat) : Txt := natDigitsGo (n + 1) n

/-- Python `f"{i:04d}"`: decimal digits left-padded with zeros to width 4. -/
def pad4 (n : Nat) : Txt :=
  List.replicate (4 - (natDigits n).length) '0' ++ natDigits n

/-- `_generate_chunk_id(doc_id, index, content)`. The first 8 hex
characters of the SHA-256 of the content come from the external `hashlib`;
the hash is therefore a parameter `hash8`. -/
def generate_chunk_id (hash8 : Txt → Txt) (docId : Txt) (index : Nat)
    (content : Txt) : Txt :=
  docId ++ "_chunk_".data ++ pad4 index ++ "_".data ++ hash8 content

/-- `ChunkMetadata` (the fields the chunker fills; the remaining dataclass
fields keep their defaults and are omitted). -/
structure ChunkMeta where
  doc_id : Txt
  doc_type : Txt
  chip : Txt
  section_path : Txt
  page : Nat
  content_type : Txt
deriving DecidableEq

/-- `Chunk`. -/
structure Chunk where
  chunk_id : Txt
  content : Txt
  token_count : Nat
  metadata : ChunkMeta
deriving DecidableEq

/-- `ChunkConfig` (all token counts are non-negative integers). -/
structure ChunkConfig where
  max_tokens : Nat
  overlap_tokens : Nat
  min_tokens : Nat

/-- `ParseResult` (the fields the chunker reads). -/
structure ParseResult where
  doc_id : Txt
  content : Txt
  doc_type : Txt
  chip : Txt

/-! ## The orchestrator (`MarkdownChunker._do_chunk` / `chunk`) -/

/-- Step 5 of `_do_chunk`: iterate the raw fragments with their pre-drop
indices, strip, drop empties, track sections, classify, count and build
`Chunk` values. The boolean riding along is the instrumented atomicity
flag of the fragment. -/
def assembleGo (T : Tokenizer) (hash8 : Txt → Txt) (res : ParseResult)
    (stack : List (Nat × Txt)) (acc : List (Chunk × Bool)) :
    List (Nat × (Txt × Bool)) → List (Chunk × Bool)
  | [] => acc
  | (i, (t, a)) :: rest =>
    let t1 := pyStrip t
    if t1.isEmpty then assembleGo T hash8 res stack acc rest
    else
      let page := (pageSearch t1).getD 0
      let t2 := pyStrip (strip_page_markers t1)
      if t2.isEmpty then assembleGo T hash8 res stack acc rest
      else
        let stack2 := tracker_update stack t2
        let meta : ChunkMeta :=
          ⟨res.doc_id, res.doc_type, res.chip, tracker_path stack2, page,
            detect_content_type t2⟩
        let c : Chunk :=
          ⟨generate_chunk_id hash8 res.doc_id i t2, t2, count_tokens T t2, meta⟩
        assembleGo T hash8 res stack2 (acc ++ [(c, a)]) rest

/-- Step 2 of `_do_chunk`: strip each segment, drop empties, pass atomic
segments through, recursively split the non-atomic ones against the
overlap-reduced budget. -/
def rawStep (T : Tokenizer) (splitBudget : Nat) (acc : List (Txt × Bool))
    (seg : Txt × Bool) : List (Txt × Bool) :=
  if (pyStrip seg.1).isEmpty then acc
  else if seg.2 then acc ++ [(pyStrip seg.1, true)]
  else acc ++ (recursive_split T (pyStrip seg.1) splitBudget SEPARATORS).map (fun s => (s, false))

def rawSplits (T : Tokenizer) (splitBudget : Nat) (segments : List (Txt × Bool)) :
    List (Txt × Bool) :=
  segments.foldl (rawStep T splitBudget) []

/-- `MarkdownChunker._do_chunk(result, config)`, with the atomicity
instrumentation retained on every produced chunk. -/
def do_chunk (T : Tokenizer) (hash8 : Txt → Txt) (res : ParseResult)
    (cfg : ChunkConfig) : List (Chunk × Bool) :=
  let content := pyStrip res.content
  if content.isEmpty then []
  else
    let splitBudget :=
      if 0 < cfg.overlap_tokens then max (cfg.max_tokens - cfg.overlap_tokens) 1
      else cfg.max_tokens
    let raw1 := rawSplits T splitBudget (extract_atomic_blocks content)
    let raw2 := add_overlap T raw1 cfg.overlap_tokens
    let raw3 := merge_small_chunks T raw2 cfg.min_tokens cfg.max_tokens
    assembleGo T hash8 res [] [] raw3.enum

/-- The public `MarkdownChunker.chunk` output (dropping the
instrumentation flags). -/
def markdown_chunk (T : Tokenizer) (hash8 : Txt → Txt) (res : ParseResult)
    (cfg : ChunkConfig) : List Chunk :=
  (do_chunk T hash8 res cfg).map Prod.fst

/-- Python exceptions relevant to `chunk`: the classified `ChunkError` and
any other unexpected exception. -/
inductive PyExc where
  | chunkError (msg : Txt)
  | other (msg : Txt)

/-- The message built by the `except Exception` handler in
`MarkdownChunker.chunk`. -/
def chunkErrorMsg (docId : Txt) (cause : Txt) : Txt :=
  "Failed to chunk document ".data ++ docId ++ ": ".data ++ cause

/-- The `try/except` boundary of `MarkdownChunker.chunk`: a `ChunkError`
passes through, any other exception is re-raised as a `ChunkError` naming
the document. -/
def chunk_catch (docId : Txt) (inner : Except PyExc (List Chunk)) :
    Except PyExc (List Chunk) :=
  match inner with
  | .ok cs => .ok cs
  | .error (.chunkError m) => .error (.chunkError m)
  | .error (.other m) => .error (.chunkError (chunkErrorMsg docId m))

/-! ## Specification-side and claim-reading definitions -/

/-- Evaluation of an ordered rule cascade: first matching rule wins. -/
def cascadeEval (rules : List ((Txt → Bool) × Txt)) (dflt : Txt) (t : Txt) : Txt :=
  match rules with
  | [] => dflt
  | (p, lab) :: rest => if p t then lab else cascadeEval rest dflt t

/-- The classifier cascade in specification order: code; the four
table-refinement families register → pin → electrical → timing, then
table; the prose families errata → config_procedure → register →
timing → pin → electrical; then section, default prose. -/
def specRules : List ((Txt → Bool) × Txt) :=
  [(fenceSearch, "code".data),
   (fun t => tableSepSearch t && reSearch reRegisterKw t, "register_table".data),
   (fun t => tableSepSearch t && reSearch rePinMapKw t, "pin_mapping".data),
   (fun t => tableSepSearch t && reSearch reElectricalKw t, "electrical_spec".data),
   (fun t => tableSepSearch t && reSearch reTimingKw t, "timing_spec".data),
   (tableSepSearch, "table".data),
   (fun t => reSearch reErrataKw t, "errata".data),
   (fun t => reSearch reConfigProcKw t, "config_procedure".data),
   (fun t => reSearch reRegisterKw t, "register_description".data),
   (fun t => reSearch reTimingKw t, "timing_spec".data),
   (fun t => reSearch rePinMapKw t, "pin_mapping".data),
   (fun t => reSearch reElectricalKw t, "electrical_spec".data),
   (headingSearch, "section".data)]

/-- Boolean reading of claim C3 over the final output pairs (projected to
content and atomicity flag): for every adjacent pair whose second member is
non-atomic, with positive overlap and the first member counting more than
`overlap_tokens` tokens, the second member's content must begin with the
decoded last `overlap_tokens` tokens of the first member's content. -/
def c3ClaimHolds (T : Tokenizer) (k : Nat) (out : List (Txt × Bool)) : Bool :=
  (List.range out.length).all fun i =>
    match out[i]?, out[i + 1]? with
    | some p, some q =>
      if (!q.2) && (k != 0) && decide (k < count_tokens T p.1) then
        (T.decode ((T.encode p.1).drop ((T.encode p.1).length - k))).isPrefixOf q.1
      else true
    | _, _ => true

/-- Per-item chunk id emitted by the assembly loop (or `none` when the
fragment is dropped for emptiness); it depends only on the enumerated
index and the fragment, not on the tracker state. -/
def emitId (hash8 : Txt → Txt) (docId : Txt) (it : Nat × (Txt × Bool)) : Option Txt :=
  let t1 := pyStrip it.2.1
  if t1.isEmpty then none
  else
    let t2 := pyStrip (strip_page_markers t1)
    if t2.isEmpty then none
    else some (generate_chunk_id hash8 docId it.1 t2)

/-- Modelled from the spec wording of claim C6: a line "starting with
a pipe" (the claim's table-candidate criterion, in place of the source's
full `^\|.+\|$` row pattern). -/
def specTableRow : Txt → Bool
  | '|' :: _ => true
  | _ => false

/-- Modelled from the spec wording of claim C6: the extractor with table
candidates taken to be maximal runs of consecutive lines each starting
with a pipe, promoted iff the run contains a separator row; fences as in
the source. For comparison against `extractGo`. -/
def c6SpecExtractGo (fuel : Nat) (cur : List Txt) (lines : List Txt) :
    List (Txt × Bool) :=
  match fuel, lines with
  | _, [] => flushText cur
  | 0, _ :: _ => flushText cur
  | fuel + 1, l :: ls =>
    match fenceOpen l with
    | some (c, n) =>
      let r := consumeFence c n ls
      flushText cur ++ (joinWith '\n' (l :: r.1), true) :: c6SpecExtractGo fuel [] r.2
    | none =>
      if specTableRow l then
        let run := l :: ls.takeWhile specTableRow
        let rest := ls.dropWhile specTableRow
        let ttext := joinWith '\n' run
        if tableSepSearch ttext then
          flushText cur ++ (ttext, true) :: c6SpecExtractGo fuel [] rest
        else
          c6SpecExtractGo fuel (cur ++ run) rest
      else
        c6SpecExtractGo fuel (cur ++ [l]) ls

/-- Modelled from the spec wording of claim C6 (see `c6SpecExtractGo`). -/
def c6SpecExtract (text : Txt) : List (Txt × Bool) :=
  let lines := splitOnChar '\n' text
  c6SpecExtractGo lines.length [] lines

/-- Decidable infix test on character lists. -/
def txtInfix : Txt → Txt → Bool
  | needle, [] => needle.isPrefixOf []
  | needle, c :: rest => needle.isPrefixOf (c :: rest) || txtInfix needle rest

/-! ## Helper lemmas -/

theorem splitOnChar_ne_nil (sep : Char) (s : Txt) : splitOnChar sep s ≠ [] := by
  cases s with
  | nil => simp [splitOnChar]
  | cons c cs =>
    simp only [splitOnChar]
    rcases h : splitOnChar sep cs with _ | ⟨h1, t1⟩
    · simp
    · by_cases hc : (c == sep) = true <;> simp [hc]

theorem joinWith_splitOnChar (sep : Char) (s : Txt) :
    joinWith sep (splitOnChar sep s) = s := by
  induction s with
  | nil => rfl
  | cons c cs ih =>
    simp only [splitOnChar]
    rcases h : splitOnChar sep cs with _ | ⟨h1, t1⟩
    · exact absurd h (splitOnChar_ne_nil sep cs)
    · rw [h] at ih
      dsimp only
      by_cases hc : (c == sep) = true
      · have hceq : c = sep := by simpa using hc
        rw [if_pos hc]
        cases t1 with
        | nil =>
          simp only [joinWith] at ih ⊢
          rw [ih, hceq]
          rfl
        | cons x xs =>
          simp only [joinWith] at ih ⊢
          rw [ih, hceq]
          rfl
      · rw [if_neg hc]
        cases t1 with
        | nil =>
          simp only [joinWith] at ih ⊢
          rw [ih]
        | cons x xs =>
          simp only [joinWith, List.cons_append] at ih ⊢
          rw [ih]

theorem charTok_laws : TokenizerLaws charTok := by
  constructor
  · intro s
    simp [charTok, List.map_map, Function.comp_def]
  · rfl
  · intro l₁ l₂ h
    simp only [charTok, List.map_map] at h ⊢
    rw [List.map_append] at h
    exact List.append_inj h (by simp)
  · intro a b
    simp [charTok]
  · intro a b h
    simpa [charTok] using h.length_le

theorem count_tokens_eq_encode_length (T : Tokenizer) (L : TokenizerLaws T) (s : Txt) :
    count_tokens T s = (T.encode s).length := by
  unfold count_tokens
  split
  · rename_i h; subst h; rw [L.encode_nil]; rfl
  · rfl

theorem consumeFence_append (c : Char) (n : Nat) (ls : List Txt) :
    (consumeFence c n ls).1 ++ (consumeFence c n ls).2 = ls := by
  induction ls with
  | nil => rfl
  | cons l ls ih =>
    simp only [consumeFence]
    split
    · rfl
    · simpa using ih

theorem consumeFence_rest_length (c : Char) (n : Nat) (ls : List Txt) :
    (consumeFence c n ls).2.length ≤ ls.length := by
  induction ls with
  | nil => simp [consumeFence]
  | cons l ls ih =>
    simp only [consumeFence]
    split
    · simp
    · simpa using Nat.le_succ_of_le ih

theorem head?_dropWhile_false {α : Type} (p : α → Bool) (l : List α) (x : α)
    (h : (l.dropWhile p).head? = some x) : p x = false := by
  induction l with
  | nil => simp [List.dropWhile] at h
  | cons a t ih =>
    rw [List.dropWhile_cons] at h
    cases hp : p a with
    | true =>
      rw [hp] at h
      simp only [if_true] at h
      exact ih h
    | false =>
      rw [hp] at h
      simp only [Bool.false_eq_true, if_false, List.head?_cons, Option.some.injEq] at h
      subst h
      exact hp

theorem trackerUpdateOne_chain (stack : List (Nat × Txt)) (h : Nat × Txt)
    (hc : stack.Chain' (fun a b => b.1 < a.1)) :
    (trackerUpdateOne stack h).Chain' (fun a b => b.1 < a.1) := by
  unfold trackerUpdateOne
  rw [List.chain'_cons']
  constructor
  · intro y hy
    have hpy := head?_dropWhile_false _ _ _ hy
    simp only [decide_eq_false_iff_not, not_le] at hpy
    exact hpy
  · exact hc.suffix (List.dropWhile_suffix _)

theorem tracker_update_chain (stack : List (Nat × Txt)) (text : Txt)
    (hc : stack.Chain' (fun a b => b.1 < a.1)) :
    (tracker_update stack text).Chain' (fun a b => b.1 < a.1) := by
  unfold tracker_update
  generalize find_headings text = hs
  induction hs generalizing stack with
  | nil => exact hc
  | cons a t ih => exact ih _ (trackerUpdateOne_chain _ _ hc)

/-! ## Claim C7 -/

/-- C7: for every sequence of `update(text)` calls on a freshly created
section tracker, the heading stack is strictly increasing in level from
bottom to top (here: the reversed head-top stack is `<`-chained), so no
two entries share a level and levels increase upward (pairwise `<`).
Each heading pops all entries at its level or deeper and is then pushed. -/
theorem c7_section_tracker_invariant (texts : List Txt) :
    ((texts.foldl tracker_update []).reverse.Chain' (fun a b => a.1 < b.1)) ∧
    ((texts.foldl tracker_update []).reverse.Pairwise (fun a b => a.1 < b.1)) := by
  have key : ∀ (ts : List Txt) (stack : List (Nat × Txt)),
      stack.Chain' (fun a b => b.1 < a.1) →
      (ts.foldl tracker_update stack).Chain' (fun a b => b.1 < a.1) := by
    intro ts
    induction ts with
    | nil => intro stack hc; exact hc
    | cons x t ih => intro stack hc; exact ih _ (tracker_update_chain _ _ hc)
  have hchain := key texts [] (by simp)
  have hrev : ((texts.foldl tracker_update []).reverse).Chain' (fun a b => a.1 < b.1) := by
    rw [List.chain'_reverse]
    exact hchain
  refine ⟨hrev, ?_⟩
  letI : IsTrans (Nat × Txt) (fun a b => a.1 < b.1) :=
    ⟨fun a b c h1 h2 => Nat.lt_trans h1 h2⟩
  exact List.chain'_iff_pairwise.mp hrev

/-! ## Claim C9 -/

/-- C9: the `chunk` boundary has exactly one failure mode: the result is
either a chunk list or a single `ChunkError`; an unexpected internal
failure is re-raised as a `ChunkError` whose message names the failing
document's id; and empty or whitespace-only document content is not an
error but yields the empty list. -/
theorem c9_single_failure_mode :
    (∀ (docId : Txt) (inner : Except PyExc (List Chunk)),
      (∃ cs, chunk_catch docId inner = .ok cs) ∨
      (∃ m, chunk_catch docId inner = .error (.chunkError m))) ∧
    (∀ (docId cause : Txt),
      chunk_catch docId (.error (.other cause)) =
        .error (.chunkError (chunkErrorMsg docId cause)) ∧
      docId <:+: chunkErrorMsg docId cause) ∧
    (∀ (T : Tokenizer) (hash8 : Txt → Txt) (res : ParseResult) (cfg : ChunkConfig),
      pyStrip res.content = [] → markdown_chunk T hash8 res cfg = []) := by
  refine ⟨?_, ?_, ?_⟩
  · intro docId inner
    match inner with
    | .ok cs => exact .inl ⟨cs, rfl⟩
    | .error (.chunkError m) => exact .inr ⟨m, rfl⟩
    | .error (.other m) => exact .inr ⟨chunkErrorMsg docId m, rfl⟩
  · intro docId cause
    refine ⟨rfl, ⟨"Failed to chunk document ".data, ": ".data ++ cause, ?_⟩⟩
    simp [chunkErrorMsg]
  · intro T hash8 res cfg h
    simp [markdown_chunk, do_chunk, h]

/-- Witness for C9: a whitespace-only document produces the empty chunk
list through the theorem's third component. -/
theorem c9_witness :
    pyStrip ("  \n ".data) = [] ∧
    markdown_chunk charTok (fun _ => "deadbeef".data)
      ⟨"d".data, "  \n ".data, [], []⟩ ⟨512, 50, 50⟩ = [] :=
  ⟨by decide,
    c9_single_failure_mode.2.2 charTok (fun _ => "deadbeef".data)
      ⟨"d".data, "  \n ".data, [], []⟩ ⟨512, 50, 50⟩ (by decide)⟩

/-! ## Claim C4 -/

/-- C4: `classify` is decided by the strict first-match-wins cascade in
the stated priority order (it coincides with evaluating `specRules` with
default `"prose"`); a text with no fence and no table separator row that
matches both the errata and the register keyword families is classified
`"errata"`; and `"api_reference"` is never returned. -/
theorem c4_classifier_cascade :
    (∀ t : Txt, detect_content_type t = cascadeEval specRules "prose".data t) ∧
    (∀ t : Txt, fenceSearch t = false → tableSepSearch t = false →
      reSearch reErrataKw t = true → reSearch reRegisterKw t = true →
      detect_content_type t = "errata".data) ∧
    (∀ t : Txt, detect_content_type t ≠ "api_reference".data) := by
  refine ⟨?_, ?_, ?_⟩
  · intro t
    cases h2 : tableSepSearch t <;>
      simp [detect_content_type, cascadeEval, specRules, h2]
  · intro t h1 h2 h3 h4
    simp [detect_content_type, h1, h2, h3]
  · intro t
    unfold detect_content_type
    split_ifs <;> decide

/-- Witness for C4: a concrete text matching both the errata and register
families (and neither fence nor table structure) is classified errata. -/
theorem c4_witness :
    fenceSearch ("errata for register 5".data) = false ∧
    tableSepSearch ("errata for register 5".data) = false ∧
    reSearch reErrataKw ("errata for register 5".data) = true ∧
    reSearch reRegisterKw ("errata for register 5".data) = true ∧
    detect_content_type ("errata for register 5".data) = "errata".data :=
  ⟨by decide, by decide, by decide, by decide,
    c4_classifier_cascade.2.1 ("errata for register 5".data)
      (by decide) (by decide) (by decide) (by decide)⟩

/-! ## Claim C3 -/

theorem addOverlapGo_get_zero (T : Tokenizer) (k : Nat) (prev : Txt)
    (l : List (Txt × Bool)) :
    (addOverlapGo T k prev l)[0]? =
      (l[0]?).map (fun q => (if q.2 then q.1 else applyOverlap T k prev q.1, q.2)) := by
  cases l with
  | nil => rfl
  | cons x rest =>
    obtain ⟨t, a⟩ := x
    simp [addOverlapGo]

theorem addOverlapGo_get (T : Tokenizer) (k : Nat) :
    ∀ (l : List (Txt × Bool)) (prev : Txt) (i : Nat) (p q : Txt × Bool),
      l[i]? = some p → l[i + 1]? = some q →
      (addOverlapGo T k prev l)[i + 1]? =
        some (if q.2 then q.1 else applyOverlap T k p.1 q.1, q.2) := by
  intro l
  induction l with
  | nil => intro prev i p q hp _; simp at hp
  | cons x rest ih =>
    intro prev i p q hp hq
    obtain ⟨t, a⟩ := x
    cases i with
    | zero =>
      simp only [List.getElem?_cons_zero, Option.some.injEq] at hp
      subst hp
      simp only [List.getElem?_cons_succ] at hq
      simp only [addOverlapGo, List.getElem?_cons_succ]
      rw [addOverlapGo_get_zero, hq]
      rfl
    | succ j =>
      simp only [List.getElem?_cons_succ] at hp hq
      simp only [addOverlapGo, List.getElem?_cons_succ]
      exact ih t j p q hp hq

theorem add_overlap_get (T : Tokenizer) (k : Nat) (chunks : List (Txt × Bool))
    (hk : k ≠ 0) (i : Nat) (p q : Txt × Bool)
    (hp : chunks[i]? = some p) (hq : chunks[i + 1]? = some q) :
    (add_overlap T chunks k)[i + 1]? =
      some (if q.2 then q.1 else applyOverlap T k p.1 q.1, q.2) := by
  have hlen : i + 1 < chunks.length := by
    rcases List.getElem?_eq_some.mp hq with ⟨h, _⟩
    exact h
  unfold add_overlap
  have hguard : (k = 0 || chunks.length ≤ 1) = false := by
    simp only [Bool.or_eq_false_iff, decide_eq_false_iff_not]
    exact ⟨by simpa using hk, by omega⟩
  rw [hguard]
  simp only [Bool.false_eq_true, if_false]
  cases chunks with
  | nil => simp at hp
  | cons c rest =>
    cases i with
    | zero =>
      simp only [List.getElem?_cons_zero, Option.some.injEq] at hp
      subst hp
      simp only [List.getElem?_cons_succ] at hq
      simp only [List.getElem?_cons_succ]
      rw [addOverlapGo_get_zero, hq]
      rfl
    | succ j =>
      simp only [List.getElem?_cons_succ] at hp hq
      simp only [List.getElem?_cons_succ]
      exact addOverlapGo_get T k rest c.1 j p q hp hq

/-- C3 (amended): the overlap property holds at the overlap-insertion
stage, with the conditions read on the inserter's input list: for every
adjacent input pair where the second chunk is non-atomic and
`overlap_tokens > 0`, if the first *input* chunk encodes to more than
`overlap_tokens` tokens then the second output chunk is the decoded last
`overlap_tokens` tokens of that input chunk prepended to the second input
chunk, and if it encodes to fewer than `overlap_tokens` tokens then the
second chunk passes through unchanged. -/
theorem c3_overlap_inserter_spec (T : Tokenizer) (chunks : List (Txt × Bool))
    (k i : Nat) (hk : k ≠ 0) (p q : Txt × Bool)
    (hp : chunks[i]? = some p) (hq : chunks[i + 1]? = some q) (hna : q.2 = false) :
    (k < (T.encode p.1).length →
      (add_overlap T chunks k)[i + 1]? =
        some (T.decode ((T.encode p.1).drop ((T.encode p.1).length - k)) ++ q.1,
          false)) ∧
    ((T.encode p.1).length < k →
      (add_overlap T chunks k)[i + 1]? = some q) := by
  have hbase := add_overlap_get T k chunks hk i p q hp hq
  rw [hna] at hbase
  simp only [Bool.false_eq_true, if_false] at hbase
  constructor
  · intro hlt
    rw [hbase]
    unfold applyOverlap
    rw [if_pos hlt]
    rcases he : (T.decode ((T.encode p.1).drop ((T.encode p.1).length - k))).isEmpty with _ | _
    · simp only [he, Bool.false_eq_true, if_false]
    · simp only [he, if_true]
      have : T.decode ((T.encode p.1).drop ((T.encode p.1).length - k)) = [] := by
        simpa [List.isEmpty_iff] using he
      rw [this]
      rfl
  · intro hlt
    rw [hbase]
    unfold applyOverlap
    rw [if_neg (by omega)]
    rw [← hna]

/-- Witness for C3: a concrete two-chunk input with the per-character
tokenizer, overlap 2 over a 4-token predecessor. -/
theorem c3_witness :
    (add_overlap charTok [("abcd".data, false), ("e".data, false)] 2)[0 + 1]? =
      some (charTok.decode
        ((charTok.encode ("abcd".data)).drop
          ((charTok.encode ("abcd".data)).length - 2)) ++ "e".data, false) :=
  (c3_overlap_inserter_spec charTok [("abcd".data, false), ("e".data, false)]
    2 0 (by decide) ("abcd".data, false) ("e".data, false)
    (by decide) (by decide) (by decide)).1 (by decide)

/-- C3 counterexample: on the document "abcd e fgh" with
`max_tokens = 6, overlap_tokens = 2, min_tokens = 0` the final chunks are
"abcd", "cde", "fgh"; the pair ("cde", "fgh") has a first member of 3
tokens (> 2) but "fgh" does not begin with "de" — the overlap source was
the pre-overlap chunk "e", not the output chunk "cde". -/
theorem c3_counterexample :
    c3ClaimHolds charTok 2
      ((do_chunk charTok (fun _ => "deadbeef".data)
          ⟨"d".data, "abcd e fgh".data, [], []⟩ ⟨6, 2, 0⟩).map
        (fun p => (p.1.content, p.2))) = false := by decide

/-! ## Claim C8 -/

theorem char_toNat_ofNat (n : Nat) (h : n < 55296) : (Char.ofNat n).toNat = n := by
  unfold Char.ofNat
  split
  · rfl
  · rename_i hv
    exact absurd (Or.inl h) hv

theorem digitsVal_append_singleton (ds : Txt) (c : Char) :
    digitsVal (ds ++ [c]) = digitsVal ds * 10 + (c.toNat - 48) := by
  unfold digitsVal
  rw [List.foldl_append]
  rfl

theorem natDigitsGo_spec : ∀ (fuel n : Nat), n < 10 ^ fuel → 0 < fuel →
    digitsVal (natDigitsGo fuel n) = n ∧
    (∀ c ∈ natDigitsGo fuel n, c.toNat < 58) ∧ natDigitsGo fuel n ≠ [] := by
  intro fuel
  induction fuel with
  | zero => intro n _ h; omega
  | succ f ih =>
    intro n hn _
    by_cases hlt : n < 10
    · refine ⟨?_, ?_, ?_⟩ <;> simp only [natDigitsGo, hlt, if_true]
      · have hcn := char_toNat_ofNat (48 + n) (by omega)
        unfold digitsVal digitChar
        simp only [List.foldl_cons, List.foldl_nil]
        rw [hcn]
        omega
      · intro c hc
        simp only [List.mem_singleton] at hc
        subst hc
        have hcn := char_toNat_ofNat (48 + n) (by omega)
        unfold digitChar
        rw [hcn]
        omega
      · simp
    · have hf : 0 < f := by
        rcases Nat.eq_zero_or_pos f with hf0 | hf0
        · subst hf0; simp at hn; omega
        · exact hf0
      have hdiv : n / 10 < 10 ^ f := by
        rw [Nat.div_lt_iff_lt_mul (by norm_num)]
        calc n < 10 ^ (f + 1) := hn
        _ = 10 ^ f * 10 := by ring
      obtain ⟨ihv, ihd, ihne⟩ := ih (n / 10) hdiv hf
      have hmod := char_toNat_ofNat (48 + n % 10) (by omega)
      refine ⟨?_, ?_, ?_⟩ <;> simp only [natDigitsGo, hlt, if_false]
      · rw [digitsVal_append_singleton, ihv]
        unfold digitChar
        rw [hmod]
        omega
      · intro c hc
        rcases List.mem_append.mp hc with hc | hc
        · exact ihd c hc
        · simp only [List.mem_singleton] at hc
          subst hc
          unfold digitChar
          rw [hmod]
          omega
      · simp

theorem natDigits_spec (n : Nat) :
    digitsVal (natDigits n) = n ∧
    (∀ c ∈ natDigits n, c.toNat < 58) ∧ natDigits n ≠ [] := by
  refine natDigitsGo_spec (n + 1) n ?_ (by omega)
  calc n < 2 ^ n * 1 := by simpa using Nat.lt_two_pow n
  _ ≤ 10 ^ n * 10 := by
      exact Nat.mul_le_mul (Nat.pow_le_pow_left (by norm_num) n) (by norm_num)
  _ = 10 ^ (n + 1) := by ring

theorem digitsVal_replicate_zero_append (k : Nat) (ds : Txt) :
    digitsVal (List.replicate k '0' ++ ds) = digitsVal ds := by
  have base : ∀ (m : Nat),
      List.foldl (fun a c => a * 10 + (c.toNat - 48)) 0 (List.replicate m '0') = 0 := by
    intro m
    induction m with
    | zero => rfl
    | succ j ihj =>
      rw [List.replicate_succ]
      simpa using ihj
  unfold digitsVal
  rw [List.foldl_append, base]

theorem digitsVal_pad4 (n : Nat) : digitsVal (pad4 n) = n := by
  unfold pad4
  rw [digitsVal_replicate_zero_append]
  exact (natDigits_spec n).1

theorem pad4_inj (m n : Nat) (h : pad4 m = pad4 n) : m = n := by
  have hm := digitsVal_pad4 m
  rw [h, digitsVal_pad4] at hm
  omega

theorem pad4_digits (n : Nat) : ∀ c ∈ pad4 n, c.toNat < 58 := by
  intro c hc
  rcases List.mem_append.mp hc with hc | hc
  · have := List.eq_of_mem_replicate hc
    subst this
    decide
  · exact (natDigits_spec n).2.1 c hc

theorem append_underscore_inj :
    ∀ (ds1 ds2 r1 r2 : Txt), (∀ c ∈ ds1, c.toNat < 58) → (∀ c ∈ ds2, c.toNat < 58) →
      ds1 ++ '_' :: r1 = ds2 ++ '_' :: r2 → ds1 = ds2 := by
  intro ds1
  induction ds1 with
  | nil =>
    intro ds2 r1 r2 _ h2 he
    cases ds2 with
    | nil => rfl
    | cons b bs =>
      simp only [List.nil_append, List.cons_append, List.cons.injEq] at he
      have hb := h2 b (by simp)
      rw [← he.1] at hb
      have : ('_').toNat = 95 := by decide
      omega
  | cons a as ih =>
    intro ds2 r1 r2 h1 h2 he
    cases ds2 with
    | nil =>
      simp only [List.cons_append, List.nil_append, List.cons.injEq] at he
      have ha := h1 a (by simp)
      rw [he.1] at ha
      have : ('_').toNat = 95 := by decide
      omega
    | cons b bs =>
      simp only [List.cons_append, List.cons.injEq] at he
      rw [he.1, ih bs r1 r2 (fun c hc => h1 c (by simp [hc])) (fun c hc => h2 c (by simp [hc])) he.2]

theorem generate_chunk_id_inj (hash8 : Txt → Txt) (docId : Txt) (i j : Nat)
    (c1 c2 : Txt)
    (h : generate_chunk_id hash8 docId i c1 = generate_chunk_id hash8 docId j c2) :
    i = j := by
  unfold generate_chunk_id at h
  simp only [List.append_assoc] at h
  have h2 := List.append_cancel_left (List.append_cancel_left h)
  have h3 : pad4 i ++ '_' :: hash8 c1 = pad4 j ++ '_' :: hash8 c2 := by
    simpa [List.append_assoc] using h2
  exact pad4_inj i j
    (append_underscore_inj (pad4 i) (pad4 j) (hash8 c1) (hash8 c2)
      (pad4_digits i) (pad4_digits j) h3)

theorem assembleGo_ids (T : Tokenizer) (hash8 : Txt → Txt) (res : ParseResult) :
    ∀ (items : List (Nat × (Txt × Bool))) (stack : List (Nat × Txt))
      (acc : List (Chunk × Bool)),
      (assembleGo T hash8 res stack acc items).map (fun p => p.1.chunk_id) =
        acc.map (fun p => p.1.chunk_id) ++
          items.filterMap (emitId hash8 res.doc_id) := by
  intro items
  induction items with
  | nil => intro stack acc; simp [assembleGo]
  | cons it rest ih =>
    intro stack acc
    obtain ⟨i, t, a⟩ := it
    simp only [assembleGo, emitId, List.filterMap_cons]
    by_cases h1 : (pyStrip t).isEmpty
    · simp only [h1, if_true]
      exact ih stack acc
    · simp only [h1, Bool.false_eq_true, if_false]
      by_cases h2 : (pyStrip (strip_page_markers (pyStrip t))).isEmpty
      · simp only [h2, if_true]
        exact ih _ acc
      · simp only [h2, Bool.false_eq_true, if_false]
        rw [ih]
        simp

theorem mem_enumFrom_le {α : Type} :
    ∀ (l : List α) (m : Nat) (y : Nat × α), y ∈ List.enumFrom m l → m ≤ y.1 := by
  intro l
  induction l with
  | nil => intro m y hy; simp [List.enumFrom] at hy
  | cons x t ih =>
    intro m y hy
    rw [List.enumFrom] at hy
    rcases List.mem_cons.mp hy with hy | hy
    · subst hy; exact Nat.le_refl m
    · exact Nat.le_of_succ_le (ih (m + 1) y hy)

theorem enumFrom_pairwise_lt {α : Type} :
    ∀ (l : List α) (m : Nat),
      (List.enumFrom m l).Pairwise (fun a b => a.1 < b.1) := by
  intro l
  induction l with
  | nil => intro m; simp [List.enumFrom]
  | cons x t ih =>
    intro m
    rw [List.enumFrom]
    refine List.Pairwise.cons ?_ (ih (m + 1))
    intro y hy
    exact Nat.lt_of_lt_of_le (Nat.lt_succ_self m) (mem_enumFrom_le t (m + 1) y hy)

/-- C8: within one document's output the chunk ids are pairwise distinct
even for identical contents, because each id embeds the fragment's
0-based pre-drop index (zero-padded to width 4, after the fixed
`"_chunk_"` marker and before an `"_"` and the content hash), and the
surviving fragments carry strictly increasing indices. -/
theorem c8_chunk_ids_unique (T : Tokenizer) (hash8 : Txt → Txt)
    (res : ParseResult) (cfg : ChunkConfig) :
    ((markdown_chunk T hash8 res cfg).map Chunk.chunk_id).Pairwise (· ≠ ·) := by
  have hids : (markdown_chunk T hash8 res cfg).map Chunk.chunk_id =
      (do_chunk T hash8 res cfg).map (fun p => p.1.chunk_id) := by
    simp [markdown_chunk]
  rw [hids]
  by_cases hc : (pyStrip res.content).isEmpty = true
  · simp [do_chunk, hc]
  · simp only [do_chunk, Bool.false_eq_true]
    rw [if_neg hc]
    rw [assembleGo_ids]
    simp only [List.map_nil, List.nil_append]
    have hH : ∀ (a b : Nat × (Txt × Bool)), a.1 < b.1 →
        ∀ x ∈ emitId hash8 res.doc_id a, ∀ y ∈ emitId hash8 res.doc_id b, x ≠ y := by
      intro a b hab x hx y hy
      unfold emitId at hx hy
      dsimp only at hx hy
      split at hx
      · simp at hx
      · split at hx
        · simp at hx
        · split at hy
          · simp at hy
          · split at hy
            · simp at hy
            · simp only [Option.mem_def, Option.some.injEq] at hx hy
              subst hx
              subst hy
              intro hcontr
              exact absurd (generate_chunk_id_inj hash8 res.doc_id a.1 b.1 _ _ hcontr)
                (Nat.ne_of_lt hab)
    have hp : ((merge_small_chunks T
        (add_overlap T
          (rawSplits T
            (if 0 < cfg.overlap_tokens then max (cfg.max_tokens - cfg.overlap_tokens) 1
             else cfg.max_tokens)
            (extract_atomic_blocks (pyStrip res.content)))
          cfg.overlap_tokens)
        cfg.min_tokens cfg.max_tokens).enum).Pairwise
        (fun (a b : Nat × (Txt × Bool)) => a.1 < b.1) := by
      simpa [List.enum] using enumFrom_pairwise_lt (merge_small_chunks T
        (add_overlap T
          (rawSplits T
            (if 0 < cfg.overlap_tokens then max (cfg.max_tokens - cfg.overlap_tokens) 1
             else cfg.max_tokens)
            (extract_atomic_blocks (pyStrip res.content)))
          cfg.overlap_tokens)
        cfg.min_tokens cfg.max_tokens) 0
    exact List.Pairwise.filterMap (emitId hash8 res.doc_id) hH hp

/-! ## Claim C1: token-budget lemma chain -/

theorem pyStrip_sublist (s : Txt) : (pyStrip s).Sublist s := by
  unfold pyStrip
  have h2 : ((s.dropWhile pySpace).reverse.dropWhile pySpace).Sublist
      (s.dropWhile pySpace).reverse := List.dropWhile_sublist pySpace
  have h3 := h2.reverse
  rw [List.reverse_reverse] at h3
  exact h3.trans (List.dropWhile_sublist pySpace)

theorem matchPageCore_rest (s : Txt) (n : Nat) (rest : Txt)
    (h : matchPageCore s = some (n, rest)) : rest.Sublist s ∧ rest.length < s.length := by
  unfold matchPageCore at h
  split at h
  · rename_i hpre
    dsimp only at h
    split at h
    · exact absurd h (by simp)
    · split at h
      · rename_i hds hrest
        simp only [Option.some.injEq, Prod.mk.injEq] at h
        have hr : rest = s.drop (10 + ((s.drop 10).takeWhile Char.isDigit).length + 4) := by
          rw [← h.2]
          rw [List.drop_drop, List.drop_drop]
          congr 1
        have hlen : 10 ≤ s.length := by
          have := List.IsPrefix.length_le (List.isPrefixOf_iff_prefix.mp hpre)
          simpa using this
        constructor
        · rw [hr]; exact List.drop_sublist _ _
        · rw [hr]
          rw [List.length_drop]
          omega
      · exact absurd h (by simp)
  · exact absurd h (by simp)

theorem stripPageGo_sublist : ∀ (fuel : Nat) (s : Txt), (stripPageGo fuel s).Sublist s := by
  intro fuel
  induction fuel with
  | zero => intro s; rw [stripPageGo.eq_def]
  | succ f ih =>
    intro s
    rw [stripPageGo.eq_def]
    rcases hm : matchPageCore s with _ | ⟨n, rest⟩
    · cases s with
      | nil => exact List.Sublist.refl []
      | cons c cs => exact (ih cs).cons₂ c
    · have hsub := (matchPageCore_rest s n rest hm).1
      refine List.Sublist.trans ?_ hsub
      refine List.Sublist.trans (ih _) ?_
      by_cases hh : (rest.head? == some '\n') = true
      · rw [if_pos hh]
        exact List.drop_sublist _ _
      · rw [if_neg hh]

theorem strip_page_markers_sublist (s : Txt) : (strip_page_markers s).Sublist s :=
  stripPageGo_sublist (s.length + 1) s

theorem count_tokens_mono (T : Tokenizer) (L : TokenizerLaws T) {a b : Txt}
    (h : a.Sublist b) : count_tokens T a ≤ count_tokens T b := by
  rw [count_tokens_eq_encode_length T L, count_tokens_eq_encode_length T L]
  exact L.count_sublist a b h

theorem chunksOf_spec (T : Tokenizer) (L : TokenizerLaws T) :
    ∀ (fuel n : Nat) (l : List Nat), T.encode (T.decode l) = l →
      ∀ w ∈ chunksOf fuel n l, T.encode (T.decode w) = w ∧ w.length ≤ n := by
  intro fuel
  induction fuel with
  | zero => intro n l _ w hw; simp [chunksOf] at hw
  | succ f ih =>
    intro n l hl w hw
    cases l with
    | nil => simp [chunksOf] at hw
    | cons x xs =>
      rw [chunksOf] at hw
      have hsplit := L.stable_split ((x :: xs).take n) ((x :: xs).drop n)
        (by rw [List.take_append_drop]; exact hl)
      rcases List.mem_cons.mp hw with hw | hw
      · subst hw
        exact ⟨hsplit.1, by simpa using List.length_take_le n (x :: xs)⟩
      · exact ih n ((x :: xs).drop n) hsplit.2 w hw

theorem hard_split_le (T : Tokenizer) (L : TokenizerLaws T) (text : Txt) (n : Nat) :
    ∀ q ∈ hard_split T text n, count_tokens T q ≤ n := by
  intro q hq
  unfold hard_split at hq
  rcases List.mem_map.mp hq with ⟨w, hw, rfl⟩
  have hstable : T.encode (T.decode (T.encode text)) = T.encode text := by
    rw [L.decode_encode]
  obtain ⟨hs, hlen⟩ := chunksOf_spec T L (T.encode text).length n (T.encode text) hstable w hw
  unfold count_tokens
  split
  · omega
  · rw [hs]; exact hlen

theorem mergeLoop_le (T : Tokenizer) (maxT : Nat) (rejoin : Txt)
    (splitBig : Txt → List Txt)
    (hs : ∀ p, ∀ q ∈ splitBig p, count_tokens T q ≤ maxT) :
    ∀ (parts : List Txt) (cur : Txt), (cur ≠ [] → count_tokens T cur ≤ maxT) →
      ∀ q ∈ mergeLoop T maxT rejoin splitBig cur parts, count_tokens T q ≤ maxT := by
  intro parts
  induction parts with
  | nil =>
    intro cur hcur q hq
    rw [mergeLoop] at hq
    split at hq
    · simp at hq
    · rename_i hne
      simp only [List.mem_singleton] at hq
      subst hq
      exact hcur (by simpa [List.isEmpty_iff] using hne)
  | cons part rest ih =>
    intro cur hcur q hq
    simp only [mergeLoop] at hq
    split at hq
    · rename_i hce
      split at hq
      · rename_i hcand
        exact ih part (fun _ => hcand) q hq
      · rename_i hcand
        rw [List.nil_append] at hq
        split at hq
        · rcases List.mem_append.mp hq with hq | hq
          · exact hs part q hq
          · exact ih [] (by simp) q hq
        · rename_i hbig
          exact ih part (fun _ => by omega) q hq
    · rename_i hce
      split at hq
      · rename_i hcand
        exact ih _ (fun _ => hcand) q hq
      · rename_i hcand
        rcases List.mem_append.mp hq with hq | hq
        · simp only [List.mem_singleton] at hq
          subst hq
          exact hcur (by simpa [List.isEmpty_iff] using hce)
        · split at hq
          · rcases List.mem_append.mp hq with hq | hq
            · exact hs part q hq
            · exact ih [] (by simp) q hq
          · rename_i hbig
            exact ih part (fun _ => by omega) q hq

theorem recursive_split_le (T : Tokenizer) (L : TokenizerLaws T) (maxT : Nat) :
    ∀ (seps : List Txt) (text : Txt), ∀ q ∈ recursive_split T text maxT seps,
      count_tokens T q ≤ maxT := by
  intro seps
  induction seps with
  | nil =>
    intro text q hq
    rw [recursive_split] at hq
    split at hq
    · rename_i hle
      simp only [List.mem_singleton] at hq
      subst hq
      exact hle
    · exact hard_split_le T L text maxT q hq
  | cons sep rest ih =>
    intro text q hq
    rw [recursive_split] at hq
    split at hq
    · rename_i hle
      simp only [List.mem_singleton] at hq
      subst hq
      exact hle
    · dsimp only at hq
      split at hq
      · exact ih text q hq
      · exact mergeLoop_le T maxT _ _ (fun p => ih p) _ [] (by simp) q hq

theorem rawSplits_le (T : Tokenizer) (L : TokenizerLaws T) (B : Nat) :
    ∀ (segs : List (Txt × Bool)) (acc : List (Txt × Bool)),
      (∀ p ∈ acc, p.2 = false → count_tokens T p.1 ≤ B) →
      ∀ p ∈ segs.foldl (rawStep T B) acc,
        p.2 = false → count_tokens T p.1 ≤ B := by
  intro segs
  induction segs with
  | nil => intro acc hacc p hp; exact hacc p hp
  | cons seg rest ih =>
    intro acc hacc p hp
    rw [List.foldl_cons] at hp
    refine ih _ ?_ p hp
    unfold rawStep
    split
    · exact hacc
    · split
      · intro r hr hf
        rcases List.mem_append.mp hr with hr | hr
        · exact hacc r hr hf
        · simp only [List.mem_singleton] at hr
          subst hr
          simp at hf
      · intro r hr hf
        rcases List.mem_append.mp hr with hr | hr
        · exact hacc r hr hf
        · rcases List.mem_map.mp hr with ⟨s, hsm, rfl⟩
          exact recursive_split_le T L B SEPARATORS _ s hsm

theorem applyOverlap_le (T : Tokenizer) (L : TokenizerLaws T) (k : Nat)
    (prev t : Txt) :
    count_tokens T (applyOverlap T k prev t) ≤ k + count_tokens T t := by
  simp only [applyOverlap]
  split
  · rename_i hk
    split
    · exact Nat.le_add_left _ _
    · rw [count_tokens_eq_encode_length T L]
      have hsplit := L.stable_split
        ((T.encode prev).take ((T.encode prev).length - k))
        ((T.encode prev).drop ((T.encode prev).length - k))
        (by rw [List.take_append_drop, L.decode_encode])
      have hov : (T.encode (T.decode
          ((T.encode prev).drop ((T.encode prev).length - k)))).length ≤ k := by
        rw [hsplit.2]
        rw [List.length_drop]
        omega
      calc (T.encode (T.decode ((T.encode prev).drop ((T.encode prev).length - k)) ++ t)).length
          ≤ (T.encode (T.decode ((T.encode prev).drop ((T.encode prev).length - k)))).length +
            (T.encode t).length := L.count_subadd _ _
        _ ≤ k + (T.encode t).length := by omega
        _ = k + count_tokens T t := by rw [count_tokens_eq_encode_length T L]
  · exact Nat.le_add_left _ _

theorem addOverlapGo_le (T : Tokenizer) (L : TokenizerLaws T) (B k : Nat) :
    ∀ (l : List (Txt × Bool)) (prev : Txt),
      (∀ p ∈ l, p.2 = false → count_tokens T p.1 ≤ B) →
      ∀ p ∈ addOverlapGo T k prev l, p.2 = false → count_tokens T p.1 ≤ B + k := by
  intro l
  induction l with
  | nil => intro prev _ p hp; simp [addOverlapGo] at hp
  | cons x restL ih =>
    intro prev hin p hp hf
    obtain ⟨t, a⟩ := x
    rw [addOverlapGo] at hp
    rcases List.mem_cons.mp hp with hp | hp
    · subst hp
      have ha : a = false := by simpa using hf
      subst ha
      simp only [Bool.false_eq_true, if_false]
      have ht : count_tokens T t ≤ B := hin (t, false) (by simp) rfl
      have hap := applyOverlap_le T L k prev t
      omega
    · exact ih t (fun q hq => hin q (List.mem_cons_of_mem _ hq)) p hp hf

theorem add_overlap_le (T : Tokenizer) (L : TokenizerLaws T) (B k : Nat)
    (chunks : List (Txt × Bool))
    (hin : ∀ p ∈ chunks, p.2 = false → count_tokens T p.1 ≤ B) :
    ∀ p ∈ add_overlap T chunks k, p.2 = false → count_tokens T p.1 ≤ B + k := by
  unfold add_overlap
  split
  · intro p hp hf
    exact le_trans (hin p hp hf) (Nat.le_add_right B k)
  · cases chunks with
    | nil => intro p hp; simp at hp
    | cons c rest =>
      intro p hp hf
      rcases List.mem_cons.mp hp with hp | hp
      · subst hp
        exact le_trans (hin p (by simp) hf) (Nat.le_add_right B k)
      · exact addOverlapGo_le T L B k rest c.1
          (fun q hq => hin q (List.mem_cons_of_mem _ hq)) p hp hf

theorem mergeSmallGo_le (T : Tokenizer) (minT maxT : Nat) :
    ∀ (l : List (Txt × Bool)) (res : List (Txt × Bool)) (cur : Txt × Bool),
      (∀ p ∈ l, p.2 = false → count_tokens T p.1 ≤ maxT) →
      (∀ p ∈ res, p.2 = false → count_tokens T p.1 ≤ maxT) →
      (cur.2 = false → count_tokens T cur.1 ≤ maxT) →
      ∀ p ∈ mergeSmallGo T minT maxT res cur l, p.2 = false → count_tokens T p.1 ≤ maxT := by
  intro l
  induction l with
  | nil =>
    intro res cur _ hres hcur p hp hf
    rw [mergeSmallGo] at hp
    split at hp
    · exact hres p hp hf
    · split at hp
      · rename_i lc heq
        split at hp
        · dsimp only at hp
          split at hp
          · rename_i hsmall hmerged
            rcases List.mem_append.mp hp with hp | hp
            · exact hres p (List.mem_of_mem_dropLast hp) hf
            · simp only [List.mem_singleton] at hp
              subst hp
              exact hmerged
          · rcases List.mem_append.mp hp with hp | hp
            · exact hres p hp hf
            · simp only [List.mem_singleton] at hp
              subst hp
              exact hcur hf
        · rcases List.mem_append.mp hp with hp | hp
          · exact hres p hp hf
          · simp only [List.mem_singleton] at hp
            subst hp
            exact hcur hf
      · rcases List.mem_append.mp hp with hp | hp
        · exact hres p hp hf
        · simp only [List.mem_singleton] at hp
          subst hp
          exact hcur hf
  | cons x restL ih =>
    intro res cur hl hres hcur p hp hf
    obtain ⟨t, a⟩ := x
    have hhead : a = false → count_tokens T t ≤ maxT := fun ha =>
      hl (t, a) (by simp) (by simpa using ha)
    have htail : ∀ q ∈ restL, q.2 = false → count_tokens T q.1 ≤ maxT :=
      fun q hq => hl q (List.mem_cons_of_mem _ hq)
    rw [mergeSmallGo] at hp
    split at hp
    · exact ih res (t, a) htail hres hhead p hp hf
    · split at hp
      · dsimp only at hp
        split at hp
        · rename_i hsmall hmerged
          refine ih res _ htail hres (fun _ => hmerged) p hp hf
        · exact ih (res ++ [cur]) (t, a)
            htail
            (fun q hq hqf => by
              rcases List.mem_append.mp hq with hq | hq
              · exact hres q hq hqf
              · simp only [List.mem_singleton] at hq
                subst hq
                exact hcur hqf)
            hhead p hp hf
      · exact ih (res ++ [cur]) (t, a)
          htail
          (fun q hq hqf => by
            rcases List.mem_append.mp hq with hq | hq
            · exact hres q hq hqf
            · simp only [List.mem_singleton] at hq
              subst hq
              exact hcur hqf)
          hhead p hp hf

theorem merge_small_chunks_le (T : Tokenizer) (minT maxT : Nat)
    (chunks : List (Txt × Bool))
    (hin : ∀ p ∈ chunks, p.2 = false → count_tokens T p.1 ≤ maxT) :
    ∀ p ∈ merge_small_chunks T chunks minT maxT, p.2 = false →
      count_tokens T p.1 ≤ maxT := by
  unfold merge_small_chunks
  split
  · exact hin
  · exact mergeSmallGo_le T minT maxT chunks [] ([], false) hin (by simp)
      (fun _ => by simp [count_tokens])

theorem mem_enumFrom_snd {α : Type} :
    ∀ (l : List α) (m : Nat) (y : Nat × α), y ∈ List.enumFrom m l → y.2 ∈ l := by
  intro l
  induction l with
  | nil => intro m y hy; simp [List.enumFrom] at hy
  | cons x t ih =>
    intro m y hy
    rw [List.enumFrom] at hy
    rcases List.mem_cons.mp hy with hy | hy
    · subst hy; simp
    · exact List.mem_cons_of_mem _ (ih (m + 1) y hy)

theorem assembleGo_le (T : Tokenizer) (L : TokenizerLaws T) (hash8 : Txt → Txt)
    (res : ParseResult) (M : Nat) :
    ∀ (items : List (Nat × (Txt × Bool))) (stack : List (Nat × Txt))
      (acc : List (Chunk × Bool)),
      (∀ p ∈ acc, p.2 = false → p.1.token_count ≤ M) →
      (∀ it ∈ items, it.2.2 = false → count_tokens T it.2.1 ≤ M) →
      ∀ p ∈ assembleGo T hash8 res stack acc items, p.2 = false →
        p.1.token_count ≤ M := by
  intro items
  induction items with
  | nil => intro stack acc hacc _ p hp; exact hacc p hp
  | cons it rest ih =>
    intro stack acc hacc hitems p hp
    obtain ⟨i, t, a⟩ := it
    have hhead : a = false → count_tokens T t ≤ M := fun ha =>
      hitems (i, t, a) (by simp) (by simpa using ha)
    have htail : ∀ q ∈ rest, q.2.2 = false → count_tokens T q.2.1 ≤ M :=
      fun q hq => hitems q (List.mem_cons_of_mem _ hq)
    rw [assembleGo] at hp
    dsimp only at hp
    split at hp
    · exact ih stack acc hacc htail p hp
    · split at hp
      · exact ih _ acc hacc htail p hp
      · refine ih _ _ ?_ htail p hp
        intro q hq hqf
        rcases List.mem_append.mp hq with hq | hq
        · exact hacc q hq hqf
        · simp only [List.mem_singleton] at hq
          subst hq
          simp only at hqf ⊢
          have hsub : (pyStrip (strip_page_markers (pyStrip t))).Sublist t :=
            ((pyStrip_sublist _).trans (strip_page_markers_sublist _)).trans
              (pyStrip_sublist t)
          exact le_trans (count_tokens_mono T L hsub) (hhead hqf)

/-- C1 (amended): for every document and every config with
`max_tokens ≥ 1` *and* `overlap_tokens = 0` or
`overlap_tokens < max_tokens`, every output chunk not sourced from an
atomic segment has `token_count ≤ max_tokens`; the splitter works against
the reduced budget `split_budget = max(max_tokens - overlap_tokens, 1)`
when `overlap_tokens > 0` (else `max_tokens`), which reserves exactly the
headroom consumed by the prepended overlap. (When
`overlap_tokens ≥ max_tokens` the clamp to 1 breaks the bound — see the
counterexample.) Stated over any tokenizer satisfying `TokenizerLaws`. -/
theorem c1_token_budget (T : Tokenizer) (L : TokenizerLaws T) (hash8 : Txt → Txt)
    (res : ParseResult) (cfg : ChunkConfig) (hmax : 1 ≤ cfg.max_tokens)
    (hov : cfg.overlap_tokens = 0 ∨ cfg.overlap_tokens < cfg.max_tokens) :
    ∀ p ∈ do_chunk T hash8 res cfg, p.2 = false →
      p.1.token_count ≤ cfg.max_tokens := by
  intro p hp hf
  by_cases hc : (pyStrip res.content).isEmpty = true
  · simp [do_chunk, hc] at hp
  · simp only [do_chunk] at hp
    rw [if_neg hc] at hp
    set B := if 0 < cfg.overlap_tokens then max (cfg.max_tokens - cfg.overlap_tokens) 1
      else cfg.max_tokens with hB
    have hBk : B + cfg.overlap_tokens ≤ cfg.max_tokens := by
      by_cases hk : 0 < cfg.overlap_tokens
      · have hlt : cfg.overlap_tokens < cfg.max_tokens := by
          rcases hov with h0 | h0
          · omega
          · exact h0
        have hmx : max (cfg.max_tokens - cfg.overlap_tokens) 1 =
            cfg.max_tokens - cfg.overlap_tokens := Nat.max_eq_left (by omega)
        rw [hB, if_pos hk, hmx]
        omega
      · rw [hB, if_neg hk]
        omega
    have h1 : ∀ q ∈ rawSplits T B (extract_atomic_blocks (pyStrip res.content)),
        q.2 = false → count_tokens T q.1 ≤ B := by
      intro q hq
      exact rawSplits_le T L B (extract_atomic_blocks (pyStrip res.content)) []
        (by simp) q hq
    have h2 : ∀ q ∈ add_overlap T
        (rawSplits T B (extract_atomic_blocks (pyStrip res.content)))
        cfg.overlap_tokens,
        q.2 = false → count_tokens T q.1 ≤ cfg.max_tokens := by
      intro q hq hqf
      exact le_trans
        (add_overlap_le T L B cfg.overlap_tokens _ h1 q hq hqf) hBk
    have h3 := merge_small_chunks_le T cfg.min_tokens cfg.max_tokens _ h2
    refine assembleGo_le T L hash8 res cfg.max_tokens _ [] [] (by simp) ?_ p hp hf
    intro it hit hitf
    exact h3 it.2 (mem_enumFrom_snd _ 0 it hit) hitf

/-- C1 counterexample: with `max_tokens = 1 ≥ 1`, `overlap_tokens = 2`,
`min_tokens = 0` and the document "```\nabcdef\n```\nxy z" under the
per-character tokenizer, the chunk at index 1 is the non-atomic "``x"
(overlap "``" taken from the oversized atomic code fence plus the split
piece "x") with `token_count = 3 > max_tokens = 1` — the claim as stated
(only requiring `max_tokens ≥ 1`) fails. -/
theorem c1_counterexample :
    ¬ (∀ p ∈ do_chunk charTok (fun _ => "deadbeef".data)
        ⟨"d".data, "```\nabcdef\n```\nxy z".data, [], []⟩ ⟨1, 2, 0⟩,
        p.2 = false → p.1.token_count ≤ 1) := by decide

/-- Witness for C1: the amended bound instantiated on a concrete document
and config (max 6, overlap 2 < 6, min 0) with the per-character tokenizer. -/
theorem c1_witness :
    (1 ≤ (6 : Nat)) ∧
    (∀ p ∈ do_chunk charTok (fun _ => "deadbeef".data)
        ⟨"d".data, "abcd e fgh".data, [], []⟩ ⟨6, 2, 0⟩,
      p.2 = false → p.1.token_count ≤ (⟨6, 2, 0⟩ : ChunkConfig).max_tokens) :=
  ⟨by decide,
    c1_token_budget charTok charTok_laws (fun _ => "deadbeef".data)
      ⟨"d".data, "abcd e fgh".data, [], []⟩ ⟨6, 2, 0⟩ (by decide) (Or.inr (by decide))⟩

/-! ## Claim C5: extractor reconstruction -/

theorem joinWith_append (sep : Char) :
    ∀ (g1 g2 : List Txt), g1 ≠ [] → g2 ≠ [] →
      joinWith sep (g1 ++ g2) = joinWith sep g1 ++ sep :: joinWith sep g2 := by
  intro g1
  induction g1 with
  | nil => intro g2 h1 _; exact absurd rfl h1
  | cons x g1t ih =>
    intro g2 h1 h2
    cases g1t with
    | nil =>
      cases g2 with
      | nil => exact absurd rfl h2
      | cons y g2t => simp [joinWith]
    | cons z zt =>
      have hih := ih g2 (by simp) h2
      have hl : (x :: z :: zt) ++ g2 = x :: ((z :: zt) ++ g2) := by simp
      rw [hl]
      have hzg : (z :: zt) ++ g2 = z :: (zt ++ g2) := by simp
      rw [hzg]
      show x ++ sep :: joinWith sep (z :: (zt ++ g2)) =
        (x ++ sep :: joinWith sep (z :: zt)) ++ sep :: joinWith sep g2
      rw [← hzg, hih]
      simp [List.append_assoc]

theorem flatten_ne_nil_of_head (g : List Txt) (gs : List (List Txt)) (hg : g ≠ []) :
    (g :: gs).flatten ≠ [] := by
  simp only [List.flatten_cons]
  intro hcontra
  rcases List.append_eq_nil.mp hcontra with ⟨h1, _⟩
  exact hg h1

theorem joinWith_flatten (sep : Char) :
    ∀ gs : List (List Txt), (∀ g ∈ gs, g ≠ []) →
      joinWith sep (gs.map (joinWith sep)) = joinWith sep gs.flatten := by
  intro gs
  induction gs with
  | nil => intro _; rfl
  | cons g gst ih =>
    intro hne
    cases gst with
    | nil => simp [joinWith]
    | cons g2 gst2 =>
      have hg : g ≠ [] := hne g (by simp)
      have hflat_ne : ((g2 :: gst2).flatten) ≠ [] :=
        flatten_ne_nil_of_head g2 gst2 (hne g2 (by simp))
      have hstep : joinWith sep (joinWith sep g :: (g2 :: gst2).map (joinWith sep)) =
          joinWith sep g ++ sep :: joinWith sep ((g2 :: gst2).map (joinWith sep)) := by
        cases hmm : (g2 :: gst2).map (joinWith sep) with
        | nil => simp at hmm
        | cons a as => rfl
      show joinWith sep (joinWith sep g :: (g2 :: gst2).map (joinWith sep)) = _
      rw [hstep, ih (fun x hx => hne x (List.mem_cons_of_mem _ hx))]
      show joinWith sep g ++ sep :: joinWith sep ((g2 :: gst2).flatten) =
        joinWith sep (g ++ (g2 :: gst2).flatten)
      exact (joinWith_append sep g (g2 :: gst2).flatten hg hflat_ne).symm

/-- The extractor's segments are newline-joins of consecutive groups of
input lines: the groups are non-empty and concatenate (in order) to the
pending buffer followed by the remaining lines. -/
theorem extractGo_groups :
    ∀ (fuel : Nat) (cur lines : List Txt), lines.length ≤ fuel →
      ∃ gs : List (List Txt),
        (extractGo fuel cur lines).map Prod.fst = gs.map (joinWith '\n') ∧
        gs.flatten = cur ++ lines ∧ (∀ g ∈ gs, g ≠ []) := by
  intro fuel
  induction fuel with
  | zero =>
    intro cur lines hlen
    have : lines = [] := List.length_eq_zero.mp (Nat.le_zero.mp hlen)
    subst this
    cases cur with
    | nil => exact ⟨[], by simp [extractGo, flushText], by simp, by simp⟩
    | cons c ct =>
      exact ⟨[c :: ct], by simp [extractGo, flushText], by simp, by simp⟩
  | succ f ih =>
    intro cur lines hlen
    cases lines with
    | nil =>
      cases cur with
      | nil => exact ⟨[], by simp [extractGo, flushText], by simp, by simp⟩
      | cons c ct =>
        exact ⟨[c :: ct], by simp [extractGo, flushText], by simp, by simp⟩
    | cons l ls =>
      simp only [List.length_cons, Nat.succ_le_succ_iff] at hlen
      rw [extractGo]
      rcases hfo : fenceOpen l with _ | ⟨c, n⟩
      · by_cases hrow : isTableRow l = true
        · rw [if_pos hrow]
          by_cases hsep :
              tableSepSearch (joinWith '\n' (l :: ls.takeWhile isTableRow)) = true
          · rw [if_pos hsep]
            have hrest_len : (ls.dropWhile isTableRow).length ≤ f :=
              le_trans (List.dropWhile_sublist isTableRow).length_le hlen
            obtain ⟨gs, hmap, hjoin, hne⟩ := ih [] (ls.dropWhile isTableRow) hrest_len
            refine ⟨(if cur = [] then [] else [cur]) ++
              (l :: ls.takeWhile isTableRow) :: gs, ?_, ?_, ?_⟩
            · cases cur with
              | nil => simpa [flushText] using hmap
              | cons c2 ct => simpa [flushText] using hmap
            · cases cur with
              | nil => simp [hjoin]
              | cons c2 ct => simp [hjoin]
            · intro g hg
              rcases List.mem_append.mp hg with hg | hg
              · split at hg
                · simp at hg
                · simp only [List.mem_singleton] at hg
                  subst hg
                  rename_i hcur
                  exact hcur
              · rcases List.mem_cons.mp hg with hg | hg
                · subst hg; simp
                · exact hne g hg
          · rw [if_neg hsep]
            have hrest_len : (ls.dropWhile isTableRow).length ≤ f :=
              le_trans (List.dropWhile_sublist isTableRow).length_le hlen
            obtain ⟨gs, hmap, hjoin, hne⟩ :=
              ih (l :: ls.takeWhile isTableRow) (ls.dropWhile isTableRow) hrest_len
            refine ⟨(if cur = [] then [] else [cur]) ++ gs, ?_, ?_, ?_⟩
            · cases cur with
              | nil => simpa [flushText] using hmap
              | cons c2 ct => simpa [flushText] using hmap
            · cases cur with
              | nil => simp [hjoin]
              | cons c2 ct => simp [hjoin]
            · intro g hg
              rcases List.mem_append.mp hg with hg | hg
              · split at hg
                · simp at hg
                · simp only [List.mem_singleton] at hg
                  subst hg
                  rename_i hcur
                  exact hcur
              · exact hne g hg
        · rw [if_neg hrow]
          obtain ⟨gs, hmap, hjoin, hne⟩ := ih (cur ++ [l]) ls hlen
          refine ⟨gs, hmap, ?_, hne⟩
          rw [hjoin]
          simp
      · have hrest_len : (consumeFence c n ls).2.length ≤ f :=
          le_trans (consumeFence_rest_length c n ls) hlen
        obtain ⟨gs, hmap, hjoin, hne⟩ := ih [] (consumeFence c n ls).2 hrest_len
        refine ⟨(if cur = [] then [] else [cur]) ++ (l :: (consumeFence c n ls).1) :: gs,
          ?_, ?_, ?_⟩
        · cases cur with
          | nil => simpa [flushText] using hmap
          | cons c2 ct => simpa [flushText] using hmap
        · cases cur with
          | nil => simp [hjoin, consumeFence_append]
          | cons c2 ct => simp [hjoin, consumeFence_append]
        · intro g hg
          rcases List.mem_append.mp hg with hg | hg
          · split at hg
            · simp at hg
            · simp only [List.mem_singleton] at hg
              subst hg
              rename_i hcur
              exact hcur
          · rcases List.mem_cons.mp hg with hg | hg
            · subst hg; simp
            · exact hne g hg

theorem consumeFence_all_open (c : Char) (n : Nat) :
    ∀ (body : List Txt) (cl : Txt), (∀ l ∈ body, fenceClose c n l = false) →
      fenceClose c n cl = true → consumeFence c n (body ++ [cl]) = (body ++ [cl], []) := by
  intro body
  induction body with
  | nil =>
    intro cl _ hcl
    simp [consumeFence, hcl]
  | cons b bt ih =>
    intro cl hbody hcl
    have hb : fenceClose c n b = false := hbody b (by simp)
    simp only [List.cons_append, consumeFence, hb, Bool.false_eq_true, if_false]
    simp only [List.append_eq]
    rw [ih cl (fun l hl => hbody l (List.mem_cons_of_mem _ hl)) hcl]

theorem fenceOpen_of_tableRow (l : Txt) (h : isTableRow l = true) :
    fenceOpen l = none := by
  cases l with
  | nil => simp [isTableRow] at h
  | cons x xs =>
    cases hx : x == '|' with
    | false =>
      unfold isTableRow at h
      cases x <;> simp_all [isTableRow]
    | true =>
      have hx2 : x = '|' := by simpa using hx
      subst hx2
      rfl

/-- C5: the extractor is lossless and order-preserving — joining the
segment texts with single newlines reconstructs the input exactly; and an
input that is exactly one atomic block (a complete fenced block, or a
table run with a separator row covering every line) yields a single
atomic segment and no empty non-atomic segments. -/
theorem c5_extractor_lossless :
    (∀ text : Txt, joinWith '\n' ((extract_atomic_blocks text).map Prod.fst) = text) ∧
    (∀ (text : Txt) (op : Txt) (body : List Txt) (cl : Txt) (c : Char) (n : Nat),
      splitOnChar '\n' text = op :: (body ++ [cl]) →
      fenceOpen op = some (c, n) →
      (∀ l ∈ body, fenceClose c n l = false) →
      fenceClose c n cl = true →
      extract_atomic_blocks text = [(text, true)]) ∧
    (∀ (text : Txt) (l : Txt) (ls : List Txt),
      splitOnChar '\n' text = l :: ls →
      (∀ x ∈ l :: ls, isTableRow x = true) →
      tableSepSearch text = true →
      extract_atomic_blocks text = [(text, true)]) := by
  refine ⟨?_, ?_, ?_⟩
  · intro text
    unfold extract_atomic_blocks
    obtain ⟨gs, hmap, hjoin, hne⟩ := extractGo_groups (splitOnChar '\n' text).length
      [] (splitOnChar '\n' text) (Nat.le_refl _)
    rw [hmap, joinWith_flatten '\n' gs hne, hjoin]
    simpa using joinWith_splitOnChar '\n' text
  · intro text op body cl c n hsplit hop hbody hcl
    have htext : joinWith '\n' (op :: (body ++ [cl])) = text := by
      rw [← hsplit]
      exact joinWith_splitOnChar '\n' text
    simp only [extract_atomic_blocks]
    rw [hsplit]
    have hlen : (op :: (body ++ [cl])).length = (body ++ [cl]).length + 1 := rfl
    rw [hlen, extractGo, hop]
    dsimp only
    rw [consumeFence_all_open c n body cl hbody hcl]
    simp [flushText, extractGo, htext]
  · intro text l ls hsplit hrows hsep
    have htext : joinWith '\n' (l :: ls) = text := by
      rw [← hsplit]
      exact joinWith_splitOnChar '\n' text
    simp only [extract_atomic_blocks]
    rw [hsplit]
    have hlen : (l :: ls).length = ls.length + 1 := rfl
    have htake : ls.takeWhile isTableRow = ls :=
      List.takeWhile_eq_self_iff.mpr (fun x hx => hrows x (List.mem_cons_of_mem _ hx))
    have hdrop : ls.dropWhile isTableRow = [] :=
      List.dropWhile_eq_nil_iff.mpr (fun x hx => hrows x (List.mem_cons_of_mem _ hx))
    rw [hlen, extractGo, fenceOpen_of_tableRow l (hrows l (by simp))]
    dsimp only
    rw [if_pos (hrows l (by simp))]
    rw [htake, hdrop]
    simp [flushText, extractGo, htext, hsep]

/-- Witness for C5: the reconstruction component applied to a concrete
text, and the single-block components applied to a complete fenced block
and a complete separator table. -/
theorem c5_witness :
    joinWith '\n' ((extract_atomic_blocks ("a\n|x\nb".data)).map Prod.fst) = "a\n|x\nb".data ∧
    extract_atomic_blocks ("```\nq\n```".data) = [("```\nq\n```".data, true)] ∧
    extract_atomic_blocks ("|a|\n|-|".data) = [("|a|\n|-|".data, true)] :=
  ⟨c5_extractor_lossless.1 ("a\n|x\nb".data),
    c5_extractor_lossless.2.1 ("```\nq\n```".data) ("```".data) ["q".data] ("```".data)
      (Char.ofNat 0x60) 3 (by decide) (by decide) (by decide) (by decide),
    c5_extractor_lossless.2.2 ("|a|\n|-|".data) ("|a|".data) ["|-|".data]
      (by decide) (by decide) (by decide)⟩

/-! ## Claim C6: table-candidate promotion -/

/-- C6 (amended): a table candidate is a maximal run of consecutive lines
each matching the full row pattern `^\|.+\|$` (starting *and ending* with
a pipe, at least one character between — not merely "starting with a
pipe"); on meeting the run the pending ordinary-text buffer is first
flushed as its own non-atomic segment; the run is then promoted to one
atomic segment iff it contains a separator row, and otherwise its lines
start a fresh ordinary-text buffer (treated as normal text together with
the following lines). -/
theorem c6_table_promotion (fuel : Nat) (cur : List Txt) (l : Txt) (ls : List Txt)
    (hrow : isTableRow l = true) :
    extractGo (fuel + 1) cur (l :: ls) =
      (if tableSepSearch (joinWith '\n' (l :: ls.takeWhile isTableRow)) then
        flushText cur ++ (joinWith '\n' (l :: ls.takeWhile isTableRow), true) ::
          extractGo fuel [] (ls.dropWhile isTableRow)
      else flushText cur ++
        extractGo fuel (l :: ls.takeWhile isTableRow) (ls.dropWhile isTableRow)) := by
  rw [extractGo, fenceOpen_of_tableRow l hrow]
  dsimp only
  rw [if_pos hrow]

/-- Witness for C6: the amended characterization at a concrete run with a
pending buffer and whose third line starts with a pipe but is not a full
table row. -/
theorem c6_witness :
    extractGo 3 ["p".data] ["|a|".data, "|-|".data, "|x".data] =
      (if tableSepSearch (joinWith '\n'
          ("|a|".data :: (["|-|".data, "|x".data].takeWhile isTableRow))) then
        flushText ["p".data] ++ (joinWith '\n'
          ("|a|".data :: (["|-|".data, "|x".data].takeWhile isTableRow)), true) ::
          extractGo 2 [] (["|-|".data, "|x".data].dropWhile isTableRow)
      else flushText ["p".data] ++
        extractGo 2 ("|a|".data :: (["|-|".data, "|x".data].takeWhile isTableRow))
          (["|-|".data, "|x".data].dropWhile isTableRow)) :=
  c6_table_promotion 2 ["p".data] ("|a|".data) ["|-|".data, "|x".data] (by decide)

/-- C6 counterexample: on "|a|\n|-|\n|x" the claim's "each line starting
with a pipe" reading promotes all three lines into one atomic segment,
but the extractor's run stops at "|x" (which does not end with a pipe):
it promotes only the first two lines and leaves "|x" as ordinary text. -/
theorem c6_counterexample :
    c6SpecExtract ("|a|\n|-|\n|x".data) = [("|a|\n|-|\n|x".data, true)] ∧
    extract_atomic_blocks ("|a|\n|-|\n|x".data) =
      [("|a|\n|-|".data, true), ("|x".data, false)] ∧
    c6SpecExtract ("|a|\n|-|\n|x".data) ≠ extract_atomic_blocks ("|a|\n|-|\n|x".data) :=
  ⟨by decide, by decide, by decide⟩

/-! ## Claim C10: unterminated fences -/

theorem extractGo_nil (fuel : Nat) (cur : List Txt) :
    extractGo fuel cur [] = flushText cur := by
  cases fuel <;> rfl

theorem consumeFence_no_close (c : Char) (n : Nat) :
    ∀ (rest : List Txt), (∀ l ∈ rest, fenceClose c n l = false) →
      consumeFence c n rest = (rest, []) := by
  intro rest
  induction rest with
  | nil => intro _; rfl
  | cons r rt ih =>
    intro hrest
    have hr : fenceClose c n r = false := hrest r (by simp)
    simp only [consumeFence, hr, Bool.false_eq_true, if_false]
    rw [ih (fun l hl => hrest l (List.mem_cons_of_mem _ hl))]

theorem takeWhile_append_cons {α : Type} (p : α → Bool) :
    ∀ (a : List α) (y : α) (b : List α), p y = false →
      (a ++ y :: b).takeWhile p = a.takeWhile p ∧
      (a ++ y :: b).dropWhile p = a.dropWhile p ++ y :: b := by
  intro a
  induction a with
  | nil =>
    intro y b hy
    constructor
    · simp [List.takeWhile_cons, hy]
    · simp [List.dropWhile_cons, hy]
  | cons x xs ih =>
    intro y b hy
    obtain ⟨iht, ihd⟩ := ih y b hy
    cases hx : p x with
    | true =>
      constructor
      · simp only [List.cons_append, List.takeWhile_cons, hx, if_true, iht]
      · simp only [List.cons_append, List.dropWhile_cons, hx, if_true, ihd]
    | false =>
      constructor
      · simp [List.cons_append, List.takeWhile_cons, hx]
      · simp [List.cons_append, List.dropWhile_cons, hx]

theorem isTableRow_of_fenceOpen (op : Txt) (c : Char) (n : Nat)
    (h : fenceOpen op = some (c, n)) : isTableRow op = false := by
  cases op with
  | nil => simp [fenceOpen] at h
  | cons x xs =>
    unfold fenceOpen at h
    by_cases hb : x = btick
    · subst hb
      rfl
    · by_cases ht : x = '~'
      · subst ht
        rfl
      · exfalso
        have h1 : ((x :: xs).takeWhile (· == btick)).length = 0 := by
          simp [List.takeWhile_cons, hb]
        have h2 : ((x :: xs).takeWhile (· == '~')).length = 0 := by
          simp [List.takeWhile_cons, ht]
        rw [h1, h2] at h
        simp at h

theorem getLast?_cons_of_ne_nil {α : Type} (x : α) (l : List α) (h : l ≠ []) :
    (x :: l).getLast? = l.getLast? := by
  cases l with
  | nil => exact absurd rfl h
  | cons y t => simp [List.getLast?_cons_cons]

theorem extractGo_unterminated (c : Char) (n : Nat) :
    ∀ (fuel : Nat) (pre : List Txt) (cur : List Txt) (op : Txt) (rest : List Txt),
      pre.length + rest.length < fuel →
      fenceOpen op = some (c, n) →
      (∀ l ∈ pre, fenceOpen l = none) →
      (∀ l ∈ rest, fenceClose c n l = false) →
      (extractGo fuel cur (pre ++ op :: rest)).getLast? =
        some (joinWith '\n' (op :: rest), true) := by
  intro fuel
  induction fuel with
  | zero => intro pre cur op rest hlen; omega
  | succ f ih =>
    intro pre cur op rest hlen hop hpre hrest
    cases pre with
    | nil =>
      simp only [List.nil_append]
      rw [extractGo, hop]
      dsimp only
      rw [consumeFence_no_close c n rest hrest]
      rw [List.getLast?_append]
      simp [extractGo_nil, flushText]
    | cons l pre2 =>
      have hlop : fenceOpen l = none := hpre l (by simp)
      simp only [List.cons_append]
      rw [extractGo, hlop]
      dsimp only
      by_cases hrow : isTableRow l = true
      · rw [if_pos hrow]
        have hopnr : isTableRow op = false := isTableRow_of_fenceOpen op c n hop
        obtain ⟨htake, hdrop⟩ := takeWhile_append_cons isTableRow pre2 op rest hopnr
        rw [htake, hdrop]
        have hpre2 : ∀ l2 ∈ pre2.dropWhile isTableRow, fenceOpen l2 = none := by
          intro l2 hl2
          exact hpre l2 (List.mem_cons_of_mem _
            ((List.dropWhile_sublist isTableRow).subset hl2))
        have hlen2 : (pre2.dropWhile isTableRow).length + rest.length < f := by
          have hdl : (List.dropWhile isTableRow pre2).length ≤ pre2.length :=
            List.Sublist.length_le (List.dropWhile_sublist isTableRow)
          simp only [List.length_cons] at hlen
          omega
        by_cases hsep : tableSepSearch (joinWith '\n'
            (l :: pre2.takeWhile isTableRow)) = true
        · rw [if_pos hsep]
          have hrec := ih (pre2.dropWhile isTableRow) [] op rest hlen2 hop hpre2 hrest
          have hne : extractGo f [] (pre2.dropWhile isTableRow ++ op :: rest) ≠ [] := by
            intro hcontra
            rw [hcontra] at hrec
            simp at hrec
          rw [List.getLast?_append]
          rw [getLast?_cons_of_ne_nil _ _ hne]
          rw [hrec]
          rfl
        · rw [if_neg hsep]
          have hrec := ih (pre2.dropWhile isTableRow) (l :: pre2.takeWhile isTableRow)
            op rest hlen2 hop hpre2 hrest
          rw [List.getLast?_append, hrec]
          rfl
      · rw [if_neg hrow]
        refine ih pre2 (cur ++ [l]) op rest ?_ hop
          (fun l2 hl2 => hpre l2 (List.mem_cons_of_mem _ hl2)) hrest
        simp only [List.length_cons] at hlen
        omega

/-- C10 (amended): for every input whose line sequence consists of a
prefix containing no fence-opening line, then a fence-opening line that is
never followed by a matching closing line, the extractor's last segment is
exactly everything from that opening line through the end of the input,
as one atomic segment (the unterminated fence is absorbed, not an error).
(The restriction to a first-opener is forced: a fence-opening line lying
inside an earlier fenced block is not treated as an opener — see the
counterexample.) -/
theorem c10_unterminated_fence (text : Txt) (pre : List Txt) (op : Txt)
    (rest : List Txt) (c : Char) (n : Nat)
    (hsplit : splitOnChar '\n' text = pre ++ op :: rest)
    (hop : fenceOpen op = some (c, n))
    (hpre : ∀ l ∈ pre, fenceOpen l = none)
    (hrest : ∀ l ∈ rest, fenceClose c n l = false) :
    (extract_atomic_blocks text).getLast? = some (joinWith '\n' (op :: rest), true) := by
  simp only [extract_atomic_blocks]
  rw [hsplit]
  exact extractGo_unterminated c n (pre ++ op :: rest).length pre [] op rest
    (by simp) hop hpre hrest

/-- Witness for C10: a concrete document whose prefix has no opener and
whose tilde fence never closes. -/
theorem c10_witness :
    (extract_atomic_blocks ("intro\n~~~\ncode here".data)).getLast? =
      some (joinWith '\n' ("~~~".data :: ["code here".data]), true) :=
  c10_unterminated_fence ("intro\n~~~\ncode here".data) ["intro".data] ("~~~".data)
    ["code here".data] '~' 3 (by decide) (by decide) (by decide) (by decide)

/-- C10 counterexample: on "```\n~~~\n```" the line "~~~" is a
fence-opening line never followed by a matching tilde close, yet the
extractor does not return "~~~\n```" (that line through the end of input)
as an atomic segment: the line sits inside the earlier backtick fence and
the whole text is one atomic segment. -/
theorem c10_counterexample :
    fenceOpen ("~~~".data) = some ('~', 3) ∧
    fenceClose '~' 3 ("```".data) = false ∧
    ¬ (("~~~\n```".data, true) ∈ extract_atomic_blocks ("```\n~~~\n```".data)) ∧
    extract_atomic_blocks ("```\n~~~\n```".data) = [("```\n~~~\n```".data, true)] :=
  ⟨by decide, by decide, by decide, by decide⟩

/-! ## Claim C2: atomic-segment intactness -/

theorem foldl_rawStep_mono (T : Tokenizer) (B : Nat) :
    ∀ (segs : List (Txt × Bool)) (acc : List (Txt × Bool)) (x : Txt × Bool),
      x ∈ acc → x ∈ segs.foldl (rawStep T B) acc := by
  intro segs
  induction segs with
  | nil => intro acc x hx; exact hx
  | cons s st ih =>
    intro acc x hx
    rw [List.foldl_cons]
    refine ih _ x ?_
    unfold rawStep
    split
    · exact hx
    · split
      · exact List.mem_append_left _ hx
      · exact List.mem_append_left _ hx

theorem rawSplits_mem_atomic (T : Tokenizer) (B : Nat) (t : Txt)
    (hstrip : pyStrip t = t) (hne : t ≠ []) :
    ∀ (segs : List (Txt × Bool)) (acc : List (Txt × Bool)), (t, true) ∈ segs →
      (t, true) ∈ segs.foldl (rawStep T B) acc := by
  intro segs
  induction segs with
  | nil => intro acc h; simp at h
  | cons s st ih =>
    intro acc h
    rcases List.mem_cons.mp h with h | h
    · rw [List.foldl_cons]
      refine foldl_rawStep_mono T B st _ _ ?_
      rw [← h]
      unfold rawStep
      simp only [hstrip]
      have hie : t.isEmpty = false := by
        cases t with
        | nil => exact absurd rfl hne
        | cons x xs => rfl
      simp [hie]
    · rw [List.foldl_cons]
      exact ih _ h

theorem addOverlapGo_mem_atomic (T : Tokenizer) (k : Nat) (t : Txt) :
    ∀ (l : List (Txt × Bool)) (prev : Txt), (t, true) ∈ l →
      (t, true) ∈ addOverlapGo T k prev l := by
  intro l
  induction l with
  | nil => intro prev h; simp at h
  | cons x rest ih =>
    intro prev h
    obtain ⟨t2, a⟩ := x
    rcases List.mem_cons.mp h with h | h
    · have h1 : t2 = t := congrArg Prod.fst h.symm
      have h2 : a = true := congrArg Prod.snd h.symm
      subst h1
      subst h2
      rw [addOverlapGo]
      simp only [if_true]
      exact List.mem_cons_self _ _
    · rw [addOverlapGo]
      exact List.mem_cons_of_mem _ (ih t2 h)

theorem add_overlap_mem_atomic (T : Tokenizer) (k : Nat)
    (chunks : List (Txt × Bool)) (t : Txt) (h : (t, true) ∈ chunks) :
    (t, true) ∈ add_overlap T chunks k := by
  unfold add_overlap
  split
  · exact h
  · cases chunks with
    | nil => simp at h
    | cons c rest =>
      rcases List.mem_cons.mp h with h | h
      · rw [h]
        exact List.mem_cons_self _ _
      · exact List.mem_cons_of_mem _ (addOverlapGo_mem_atomic T k t rest c.1 h)

theorem merge_small_chunks_zero (T : Tokenizer) (chunks : List (Txt × Bool))
    (maxT : Nat) : merge_small_chunks T chunks 0 maxT = chunks := by
  simp [merge_small_chunks]

theorem mem_enumFrom_of_mem {α : Type} :
    ∀ (l : List α) (x : α) (m : Nat), x ∈ l → ∃ i, (i, x) ∈ List.enumFrom m l := by
  intro l
  induction l with
  | nil => intro x m hx; simp at hx
  | cons y t ih =>
    intro x m hx
    rcases List.mem_cons.mp hx with hx | hx
    · subst hx
      exact ⟨m, by simp [List.enumFrom]⟩
    · obtain ⟨i, hi⟩ := ih x (m + 1) hx
      exact ⟨i, by rw [List.enumFrom]; exact List.mem_cons_of_mem _ hi⟩

theorem assembleGo_acc (T : Tokenizer) (hash8 : Txt → Txt) (res : ParseResult) :
    ∀ (items : List (Nat × (Txt × Bool))) (stack : List (Nat × Txt))
      (acc : List (Chunk × Bool)),
      assembleGo T hash8 res stack acc items =
        acc ++ assembleGo T hash8 res stack [] items := by
  intro items
  induction items with
  | nil => intro stack acc; simp [assembleGo]
  | cons it rest ih =>
    intro stack acc
    obtain ⟨i, t, a⟩ := it
    by_cases h1 : (pyStrip t).isEmpty = true
    · simp only [assembleGo, h1, if_true]
      exact ih stack acc
    · by_cases h2 : (pyStrip (strip_page_markers (pyStrip t))).isEmpty = true
      · simp only [assembleGo, h1, h2, Bool.false_eq_true, if_false, if_true]
        exact ih _ acc
      · simp only [assembleGo, h1, h2, Bool.false_eq_true, if_false]
        rw [ih _ (acc ++ _), ih _ ([] ++ _)]
        simp [List.append_assoc]

theorem assembleGo_mem (T : Tokenizer) (hash8 : Txt → Txt) (res : ParseResult)
    (t : Txt) (a : Bool)
    (hstrip : pyStrip t = t) (hmark : strip_page_markers t = t) (hne : t ≠ []) :
    ∀ (items : List (Nat × (Txt × Bool))) (stack : List (Nat × Txt))
      (acc : List (Chunk × Bool)) (i : Nat), (i, (t, a)) ∈ items →
      ∃ ch : Chunk, (ch, a) ∈ assembleGo T hash8 res stack acc items ∧
        ch.content = t := by
  intro items
  induction items with
  | nil => intro stack acc i h; simp at h
  | cons it rest ih =>
    intro stack acc i hmem
    obtain ⟨it1, t1, a1⟩ := it
    rcases List.mem_cons.mp hmem with heq | hmem2
    · obtain ⟨rfl, rfl, rfl⟩ := heq
      have h1 : (pyStrip t).isEmpty = false := by
        rw [hstrip]
        cases t with
        | nil => exact absurd rfl hne
        | cons x xs => rfl
      have ht2 : pyStrip (strip_page_markers (pyStrip t)) = t := by
        rw [hstrip, hmark, hstrip]
      have h2 : (pyStrip (strip_page_markers (pyStrip t))).isEmpty = false := by
        rw [ht2]
        cases t with
        | nil => exact absurd rfl hne
        | cons x xs => rfl
      simp only [assembleGo, h1, h2, Bool.false_eq_true, if_false]
      rw [assembleGo_acc]
      exact ⟨_, List.mem_append_left _ (List.mem_append_right _ (List.mem_singleton_self _)), ht2⟩
    · by_cases h1 : (pyStrip t1).isEmpty = true
      · simp only [assembleGo, h1, if_true]
        exact ih stack acc i hmem2
      · by_cases h2 : (pyStrip (strip_page_markers (pyStrip t1))).isEmpty = true
        · simp only [assembleGo, h1, h2, Bool.false_eq_true, if_false, if_true]
          exact ih _ acc i hmem2
        · simp only [assembleGo, h1, h2, Bool.false_eq_true, if_false]
          exact ih _ _ i hmem2

/-- C2 (amended): atomic fragments pass whole through overlap insertion
and (with `min_tokens = 0`) unchanged through merging, so every atomic
segment whose text is unchanged by whitespace trimming and page-marker
stripping appears in full as the content of an output chunk flagged
atomic. (In general an atomic segment's text can be altered by page-marker
stripping or trimming, and a duplicated segment's text can appear in more
than one chunk — see the counterexample.) -/
theorem c2_atomic_intact (T : Tokenizer) (hash8 : Txt → Txt) (res : ParseResult)
    (cfg : ChunkConfig) (hmin : cfg.min_tokens = 0) (t : Txt)
    (hseg : (t, true) ∈ extract_atomic_blocks (pyStrip res.content))
    (hstrip : pyStrip t = t) (hmark : strip_page_markers t = t) (hne : t ≠ []) :
    ∃ p ∈ do_chunk T hash8 res cfg, p.1.content = t ∧ p.2 = true := by
  by_cases hc : (pyStrip res.content).isEmpty = true
  · exfalso
    have hcc : pyStrip res.content = [] := by
      cases hval : pyStrip res.content with
      | nil => rfl
      | cons x xs => rw [hval] at hc; simp at hc
    rw [hcc] at hseg
    have hval : extract_atomic_blocks ([] : Txt) = [([], false)] := by decide
    rw [hval] at hseg
    simp at hseg
  · simp only [do_chunk]
    rw [if_neg hc]
    have h1 : (t, true) ∈ rawSplits T
        (if 0 < cfg.overlap_tokens then max (cfg.max_tokens - cfg.overlap_tokens) 1
         else cfg.max_tokens)
        (extract_atomic_blocks (pyStrip res.content)) :=
      rawSplits_mem_atomic T _ t hstrip hne _ [] hseg
    have h2 : (t, true) ∈ add_overlap T (rawSplits T
        (if 0 < cfg.overlap_tokens then max (cfg.max_tokens - cfg.overlap_tokens) 1
         else cfg.max_tokens)
        (extract_atomic_blocks (pyStrip res.content))) cfg.overlap_tokens :=
      add_overlap_mem_atomic T cfg.overlap_tokens _ t h1
    rw [hmin, merge_small_chunks_zero]
    obtain ⟨i, hienum⟩ := mem_enumFrom_of_mem _ (t, true) 0 h2
    obtain ⟨ch, hch, hcc⟩ := assembleGo_mem T hash8 res t true hstrip hmark hne _ [] [] i hienum
    exact ⟨(ch, true), hch, hcc, rfl⟩

/-- Witness for C2: a well-formed table followed by prose; the table
appears in full as an atomic output chunk. -/
theorem c2_witness :
    ∃ p ∈ do_chunk charTok (fun _ => "deadbeef".data)
      ⟨"d".data, "|a|b|\n|-|-|\nx".data, [], []⟩ ⟨100, 0, 0⟩,
      p.1.content = "|a|b|\n|-|-|".data ∧ p.2 = true :=
  c2_atomic_intact charTok (fun _ => "deadbeef".data)
    ⟨"d".data, "|a|b|\n|-|-|\nx".data, [], []⟩ ⟨100, 0, 0⟩ rfl
    ("|a|b|\n|-|-|".data) (by decide) (by decide) (by decide) (by decide)

/-- C2 counterexample: with the same table duplicated in one document, the
full text of each atomic segment appears intact inside *two* different
output chunks, so "appears intact within exactly one output chunk" fails
as stated. -/
theorem c2_counterexample :
    ¬ (∀ seg ∈ extract_atomic_blocks
        (pyStrip ("|a|b|\n|-|-|\nx\n|a|b|\n|-|-|".data)), seg.2 = true →
        ∃! i : Nat, (((markdown_chunk charTok (fun _ => "deadbeef".data)
            ⟨"d".data, "|a|b|\n|-|-|\nx\n|a|b|\n|-|-|".data, [], []⟩
            ⟨100, 0, 0⟩)[i]?).elim false
          (fun ch => txtInfix seg.1 ch.content)) = true) := by
  intro hclaim
  have hseg : (("|a|b|\n|-|-|".data, true)) ∈ extract_atomic_blocks
      (pyStrip ("|a|b|\n|-|-|\nx\n|a|b|\n|-|-|".data)) := by decide
  obtain ⟨i, hi, huniq⟩ := hclaim ("|a|b|\n|-|-|".data, true) hseg rfl
  have h0 := huniq 0 (by decide)
  have h2 := huniq 2 (by decide)
  omega

end Hwcc
